import Mathlib

/-!
Verification of the entity-resolution core of `scripts/build_site.py`
(company-chatter repository).

The Python functions are shallowly embedded as executable Lean functions over
`List Char` / `String`.  Python dicts are modelled as insertion-ordered
association lists (`alSet` updates in place, otherwise appends, exactly like
dict assignment), Python sets of normalized-name pairs are modelled as lists
of pairs with unordered membership (`pairMem`), and the float comparison
`SequenceMatcher.ratio() >= 0.93` is modelled exactly over the rationals as
`200 * matches >= 93 * totalLength` (the two agree unless the true ratio lies
within 5e-18 of 0.93, which needs combined string length over 10^17).
-/

namespace CompanyChatter

/-- Lowercase an ASCII character, as Python `str.lower` does on ASCII input. -/
def lowChar (c : Char) : Char :=
  if 'A' ≤ c ∧ c ≤ 'Z' then Char.ofNat (c.toNat + 32) else c

/-- Uppercase an ASCII character, as Python `str.upper` does on ASCII input. -/
def upChar (c : Char) : Char :=
  if 'a' ≤ c ∧ c ≤ 'z' then Char.ofNat (c.toNat - 32) else c

/-- Is the character a lowercase-ASCII letter or digit (`[a-z0-9]`)? -/
def isLowAlnum (c : Char) : Bool :=
  ('a' ≤ c ∧ c ≤ 'z') ∨ ('0' ≤ c ∧ c ≤ '9')

/-- Is the character an ASCII letter or digit (`[A-Za-z0-9]`)? -/
def isAnyAlnum (c : Char) : Bool :=
  ('a' ≤ c ∧ c ≤ 'z') ∨ ('A' ≤ c ∧ c ≤ 'Z') ∨ ('0' ≤ c ∧ c ≤ '9')

/-- Lowercase a string (character-wise ASCII lowering). -/
def lowStr (s : String) : String := String.mk (s.data.map lowChar)

/-- Uppercase a string (character-wise ASCII raising, Python `str.upper`). -/
def upStr (s : String) : String := String.mk (s.data.map upChar)

/-- Accumulator worker for `runsOf`; `cur` holds the current run reversed. -/
def runsOfAux (p : Char → Bool) (cur : List Char) : List Char → List String
  | [] => if cur.isEmpty then [] else [String.mk cur.reverse]
  | c :: cs =>
    if p c then runsOfAux p (c :: cur) cs
    else if cur.isEmpty then runsOfAux p [] cs
    else String.mk cur.reverse :: runsOfAux p [] cs

/-- Split a character list into the maximal runs of characters satisfying
`p`; characters not satisfying `p` act as separators and are dropped.  This is
`re.findall` for a character-class-plus pattern. -/
def runsOf (p : Char → Bool) (cs : List Char) : List String :=
  runsOfAux p [] cs

/-- Python whitespace test used by `str.strip` / `str.split`. -/
def isSpaceChar (c : Char) : Bool :=
  c = ' ' ∨ c = '\t' ∨ c = '\n' ∨ c = '\r' ∨ c = '\x0b' ∨ c = '\x0c'

/-- Python `str.strip()`: drop leading and trailing whitespace. -/
def stripStr (s : String) : String :=
  String.mk (((s.data.dropWhile isSpaceChar).reverse.dropWhile isSpaceChar).reverse)

/-- Join a list of strings with a single separator character. -/
def joinWith (sep : Char) : List String → List Char
  | [] => []
  | [w] => w.data
  | w :: ws => w.data ++ sep :: joinWith sep ws

/-- Space-join, as Python `" ".join(tokens)`. -/
def joinSpace (ws : List String) : String := String.mk (joinWith ' ' ws)

/-- Lexicographic strict order on character lists by code point, matching
Python string `<`. -/
def charsLT : List Char → List Char → Bool
  | [], [] => false
  | [], _ :: _ => true
  | _ :: _, [] => false
  | a :: as, b :: bs => if a = b then charsLT as bs else decide (a < b)

/-- Python string `<` on ASCII strings. -/
def strLT (a b : String) : Bool := charsLT a.data b.data

/-- Python string `<=`. -/
def strLE (a b : String) : Bool := a = b ∨ strLT a b

/-! ### Name normalizer (`build_site.py` §Name Normalizer) -/

/-- `LEGAL_SUFFIX_TOKENS` from `build_site.py`. -/
def LEGAL_SUFFIX_TOKENS : List String :=
  ["limited", "ltd", "inc", "corp", "corporation", "company", "co",
   "private", "pvt", "plc"]

/-- `ACRONYM_EXPANSIONS` from `build_site.py`. -/
def ACRONYM_EXPANSIONS : List (String × List String) :=
  [("amc", ["asset", "management", "company"])]

/-- `ACRONYM_SUFFIX_STRIP_TOKENS = LEGAL_SUFFIX_TOKENS - {"company", "co"}`. -/
def ACRONYM_SUFFIX_STRIP_TOKENS : List String :=
  ["limited", "ltd", "inc", "corp", "corporation", "private", "pvt", "plc"]

/-- `TOKEN_EQUIVALENTS` from `build_site.py`. -/
def TOKEN_EQUIVALENTS : List (String × String) :=
  [("tech", "technology"), ("technologies", "technology"),
   ("inds", "industries"), ("hathaway", "hathway"), ("prod", "products")]

/-- `SOFT_TOKENS` from `build_site.py`. -/
def SOFT_TOKENS : List String :=
  ["india", "indian", "group", "global", "international", "holding", "holdings"]

/-- `INITIALISM_IGNORED_TOKENS` from `build_site.py`. -/
def INITIALISM_IGNORED_TOKENS : List String := ["and", "of", "the"]

/-- First-match lookup in an association list (Python `dict.get`). -/
def alGet {α : Type} (m : List (String × α)) (k : String) : Option α :=
  match m with
  | [] => none
  | (k', v) :: rest => if k' = k then some v else alGet rest k

/-- Dict assignment `m[k] = v`: update the existing entry in place, else
append.  This preserves Python's dict insertion order. -/
def alSet {α : Type} (m : List (String × α)) (k : String) (v : α) :
    List (String × α) :=
  match m with
  | [] => [(k, v)]
  | (k', v') :: rest =>
    if k' = k then (k', v) :: rest else (k', v') :: alSet rest k v

/-- `_name_tokens`: lowercase, `re.findall(r"[a-z0-9]+")`, then the
`TOKEN_EQUIVALENTS` table. -/
def nameTokens (name : String) : List String :=
  (runsOf isLowAlnum (name.data.map lowChar)).map
    (fun t => (alGet TOKEN_EQUIVALENTS t).getD t)

/-- `_has_legal_suffix`. -/
def hasLegalSuffix (name : String) : Bool :=
  match (nameTokens name).getLast? with
  | none => false
  | some t => t ∈ LEGAL_SUFFIX_TOKENS

/-- `_strip_suffix_tokens`: pop trailing tokens while they are in the
suffix set. -/
def stripSuffixTokens (tokens : List String) (suffixes : List String) :
    List String :=
  ((tokens.reverse.dropWhile (fun t => t ∈ suffixes)).reverse)

/-- `_expand_alias_tokens`: expand the final token through
`ACRONYM_EXPANSIONS` (only the last position is expanded). -/
def expandAliasTokens (tokens : List String) : List String :=
  match tokens.getLast? with
  | none => []
  | some t =>
    match alGet ACRONYM_EXPANSIONS t with
    | some expansion => tokens.dropLast ++ expansion
    | none => tokens

/-- `_normalized_name_tokens`. -/
def normalizedNameTokens (name : String) : List String :=
  stripSuffixTokens (expandAliasTokens (nameTokens name)) LEGAL_SUFFIX_TOKENS

/-- `_company_name_key`. -/
def companyNameKey (name : String) : String :=
  joinSpace (normalizedNameTokens name)

/-- `_rule_key` (identical body to `_company_name_key` in the source). -/
def ruleKeyOf (name : String) : String :=
  joinSpace (normalizedNameTokens name)

/-- `_normalize_name_key`: `re.sub(r"[^a-z0-9]+", " ", name.lower()).strip()`. -/
def normalizeNameKey (name : String) : String :=
  joinSpace (runsOf isLowAlnum (name.data.map lowChar))

/-! ### `difflib.SequenceMatcher` (no junk: inputs are far below the
autojunk threshold of 200 characters) -/

/-- Character of `a` at index `i` (callers guard the bounds). -/
def chAt (a : List Char) (i : Nat) : Char := a.getD i 'a'

/-- Lookup in a `Nat`-keyed association list, defaulting to 0
(`j2len.get(j-1, 0)` in difflib). -/
def lkN (m : List (Nat × Nat)) (k : Nat) : Nat :=
  match m with
  | [] => 0
  | (k', v) :: rest => if k' = k then v else lkN rest k

/-- One row of the `find_longest_match` dynamic program: scan the positions
`j ∈ [blo, bhi)` (ascending) with `b[j] == a[i]`, building the new `j2len`
row and updating the running best block. -/
def flmRow (a b : List Char) (i blo : Nat) (js : List Nat)
    (prev : List (Nat × Nat)) (best : Nat × Nat × Nat) :
    List (Nat × Nat) × (Nat × Nat × Nat) :=
  match js with
  | [] => ([], best)
  | j :: rest =>
    if chAt b j = chAt a i then
      let k := if j = 0 then 1 else lkN prev (j - 1) + 1
      let best' := if k > best.2.2 then (i + 1 - k, j + 1 - k, k) else best
      let (row, bestOut) := flmRow a b i blo rest prev best'
      ((j, k) :: row, bestOut)
    else flmRow a b i blo rest prev best

/-- The outer loop of `find_longest_match` over `i ∈ [alo, ahi)`. -/
def flmLoop (a b : List Char) (blo bhi : Nat) (is : List Nat)
    (prev : List (Nat × Nat)) (best : Nat × Nat × Nat) : Nat × Nat × Nat :=
  match is with
  | [] => best
  | i :: rest =>
    let (row, best') :=
      flmRow a b i blo (List.range' blo (bhi - blo)) prev best
    flmLoop a b blo bhi rest row best'

/-- Extend the best block downwards while the preceding characters agree
(difflib's first widening loop; the junk-widening loops are no-ops because
nothing is junk). -/
def extLow (a b : List Char) (alo blo : Nat) :
    Nat → Nat × Nat × Nat → Nat × Nat × Nat
  | 0, st => st
  | fuel + 1, (bi, bj, bs) =>
    if bi > alo ∧ bj > blo ∧ chAt a (bi - 1) = chAt b (bj - 1) then
      extLow a b alo blo fuel (bi - 1, bj - 1, bs + 1)
    else (bi, bj, bs)

/-- Extend the best block upwards while the following characters agree. -/
def extHigh (a b : List Char) (ahi bhi : Nat) :
    Nat → Nat × Nat × Nat → Nat × Nat × Nat
  | 0, st => st
  | fuel + 1, (bi, bj, bs) =>
    if bi + bs < ahi ∧ bj + bs < bhi ∧ chAt a (bi + bs) = chAt b (bj + bs) then
      extHigh a b ahi bhi fuel (bi, bj, bs + 1)
    else (bi, bj, bs)

/-- `SequenceMatcher.find_longest_match(alo, ahi, blo, bhi)` with no junk. -/
def flm (a b : List Char) (alo ahi blo bhi : Nat) : Nat × Nat × Nat :=
  let best := flmLoop a b blo bhi (List.range' alo (ahi - alo)) [] (alo, blo, 0)
  let best := extLow a b alo blo best.1 best
  extHigh a b ahi bhi bhi best

/-- Total size of all matching blocks (the `matches` of
`SequenceMatcher.ratio`), computed by the recursive divide-and-conquer of
`get_matching_blocks`.  `fuel` bounds the recursion depth; callers pass
more than the combined window size, which always suffices because every
recursive call strictly shrinks the window. -/
def mtot (a b : List Char) : Nat → Nat → Nat → Nat → Nat → Nat
  | 0, _, _, _, _ => 0
  | fuel + 1, alo, ahi, blo, bhi =>
    let (i, j, k) := flm a b alo ahi blo bhi
    if k = 0 then 0
    else mtot a b fuel alo i blo j + k + mtot a b fuel (i + k) ahi (j + k) bhi

/-- `SequenceMatcher(None, s, t).ratio() >= 0.93`, compared exactly over
the rationals. -/
def simGE93 (s t : String) : Bool :=
  let a := s.data
  let b := t.data
  200 * mtot a b (a.length + b.length + 1) 0 a.length 0 b.length
    ≥ 93 * (a.length + b.length)

/-! ### Compatibility oracle (`_are_company_names_compatible`) -/

/-- Membership of the unordered pair `{x, y}` in a set of rule pairs, the
model of `frozenset({x, y}) in pairs`. -/
def pairMem (ps : List (String × String)) (x y : String) : Bool :=
  ps.any (fun p => (p.1 = x ∧ p.2 = y) ∨ (p.1 = y ∧ p.2 = x))

/-- Length of the shared token prefix of two token lists. -/
def sharedPrefLen : List String → List String → Nat
  | a :: as, b :: bs => if a = b then sharedPrefLen as bs + 1 else 0
  | _, _ => 0

/-- First letters of the given tokens (skipping empty tokens). -/
def initialsOf (ts : List String) : List Char :=
  ts.filterMap (fun t => t.data.head?)

/-- `_matches_trailing_initialism`. -/
def matchesTrailingInitialism (shortT longT : List String) : Bool :=
  let sp := sharedPrefLen shortT longT
  let sTail := shortT.drop sp
  let lTail := longT.drop sp
  match sTail with
  | [v] => lTail.length ≥ 2 ∧ v.data.length ≥ 2 ∧ v.data = initialsOf lTail
  | _ => false

/-- `_matches_full_initialism`. -/
def matchesFullInitialism (shortT longT : List String) : Bool :=
  match shortT with
  | [v] =>
    longT.length ≥ 2 ∧ v.data.length ≥ 2 ∧
      v.data = initialsOf (longT.filter (fun t => t ∉ INITIALISM_IGNORED_TOKENS))
  | _ => false

/-- `_is_soft_extension`. -/
def isSoftExtension (shortT longT : List String) : Bool :=
  if shortT.isEmpty ∨ shortT.length > longT.length then false
  else if longT.take shortT.length ≠ shortT then false
  else
    let tail := longT.drop shortT.length
    ¬tail.isEmpty ∧ tail.all (fun t => t ∈ SOFT_TOKENS)

/-- `"".join(tokens)`. -/
def joinAll (ws : List String) : String :=
  String.mk (ws.foldr (fun w acc => w.data ++ acc) [])

/-- `_are_company_names_compatible(left, right, alias_pairs, block_pairs)`. -/
def compatible (leftName rightName : String)
    (aliasPairs blockPairs : List (String × String)) : Bool :=
  let lk := ruleKeyOf leftName
  let rk := ruleKeyOf rightName
  if lk = "" ∨ rk = "" then false
  else if pairMem blockPairs lk rk then false
  else if pairMem aliasPairs lk rk then true
  else
    let L := normalizedNameTokens leftName
    let R := normalizedNameTokens rightName
    if L.isEmpty ∨ R.isEmpty then false
    else if L = R then true
    else if joinAll L = joinAll R then true
    else if simGE93 (joinSpace L) (joinSpace R) then true
    else
      let sh := if L.length ≤ R.length then L else R
      let lo := if L.length ≤ R.length then R else L
      if sh.length ≥ 3 ∧ lo.take sh.length = sh then true
      else if sh.length = 1 ∧ isSoftExtension sh lo then true
      else if sh.length ≥ 2 ∧ sh.all (fun t => t ∈ lo) then true
      else
        let lAc := stripSuffixTokens (nameTokens leftName) ACRONYM_SUFFIX_STRIP_TOKENS
        let rAc := stripSuffixTokens (nameTokens rightName) ACRONYM_SUFFIX_STRIP_TOKENS
        matchesTrailingInitialism lAc rAc ∨ matchesTrailingInitialism rAc lAc ∨
          matchesFullInitialism lAc rAc ∨ matchesFullInitialism rAc lAc

/-! ### Non-company predicate (`_looks_like_topic_or_sentence`,
`_matches_non_company_rules`) -/

/-- `COMPANY_HINT_TOKENS` from `build_site.py`. -/
def COMPANY_HINT_TOKENS : List String :=
  ["bank", "bancorp", "bancshares", "beverages", "bio", "biosciences",
   "capital", "chemicals", "company", "communications", "corp", "corporation",
   "energy", "engineering", "financial", "foods", "group", "holding",
   "holdings", "inc", "industries", "insurance", "international", "labs",
   "limited", "ltd", "motors", "pharma", "pharmaceuticals", "plc", "private",
   "pvt", "retail", "sa", "systems", "technologies", "technology"]

/-- `SENTENCE_START_TOKENS` from `build_site.py`. -/
def SENTENCE_START_TOKENS : List String :=
  ["we", "we've", "our", "this", "that", "these", "those", "broader",
   "sectoral", "check", "have", "introducing", "given", "are"]

/-- Character class `[A-Za-z0-9&'.-]` of the word regex in
`_looks_like_topic_or_sentence`. -/
def isTopicWordChar (c : Char) : Bool :=
  isAnyAlnum c ∨ c = '&' ∨ c = '\'' ∨ c = '.' ∨ c = '-'

/-- `_has_company_hint`. -/
def hasCompanyHint (words : List String) : Bool :=
  words.any (fun w => w ∈ COMPANY_HINT_TOKENS)

/-- Word character for the regex `\b` boundary (`[A-Za-z0-9_]`). -/
def isWordChar (c : Char) : Bool := isAnyAlnum c ∨ c = '_'

/-- Drop the literal prefix `p` from `cs`, if present. -/
def dropLit : List Char → List Char → Option (List Char)
  | [], cs => some cs
  | _ :: _, [] => none
  | p :: ps, c :: cs => if c = p then dropLit ps cs else none

/-- Match `\s+on\b` at the head of `l`. -/
def matchSpacesOn (l : List Char) : Bool :=
  match l with
  | [] => false
  | c :: cs =>
    if isSpaceChar c then
      match dropLit "on".data (cs.dropWhile isSpaceChar) with
      | some [] => true
      | some (c2 :: _) => ¬isWordChar c2
      | none => false
    else false

/-- Match `comments?\s+on\b` at the head of `l` (the `\b` on the left is
checked by the caller). -/
def matchCommentsOnHere (l : List Char) : Bool :=
  match dropLit "comment".data l with
  | none => false
  | some rest =>
    match rest with
    | 's' :: r => matchSpacesOn r
    | _ => matchSpacesOn rest

/-- `re.search(r"\bcomments?\s+on\b", text)`: scan every position whose
preceding character is not a word character. -/
def hasCommentsOnAux (prevWord : Bool) : List Char → Bool
  | [] => false
  | c :: cs =>
    (¬prevWord ∧ matchCommentsOnHere (c :: cs)) ∨
      hasCommentsOnAux (isWordChar c) cs

/-- Search for `\bcomments?\s+on\b`. -/
def hasCommentsOn (cs : List Char) : Bool := hasCommentsOnAux false cs

/-- `_looks_like_topic_or_sentence`. -/
def looksLikeTopicOrSentence (name : String) : Bool :=
  let words := (runsOf isTopicWordChar name.data).map lowStr
  match words with
  | [] => false
  | first :: _ =>
    if first ∈ SENTENCE_START_TOKENS ∧ words.length > 4 then true
    else if hasCommentsOn (joinSpace words).data then true
    else if "on" ∈ words ∧ words.length ≥ 4 ∧ ¬hasCompanyHint words then true
    else
      words.any (fun t => t = "minister" ∨ t = "secretary") ∧ "on" ∈ words

/-- The loaded non-company rule file: exact and allow name keys, plus the
compiled `name_patterns` modelled as arbitrary string predicates (the file's
regexes are external input; the claims do not depend on their semantics). -/
structure NonCompanyRules where
  exactKeys : List String
  allowKeys : List String
  patterns : List (String → Bool)

/-- `_matches_non_company_rules`. -/
def matchesNonCompanyRules (name : String) (rules : NonCompanyRules) : Bool :=
  let key := normalizeNameKey name
  if key ∈ rules.allowKeys then false
  else if key ∈ rules.exactKeys then true
  else rules.patterns.any (fun p => p name)

/-! ### Market identity extractor (`_market_key_from_url`), over a model of
`urllib.parse.urlparse` restricted to the two fields the code reads -/

/-- Characters allowed in a URL scheme after the initial letter. -/
def isSchemeChar (c : Char) : Bool :=
  isAnyAlnum c ∨ c = '+' ∨ c = '-' ∨ c = '.'

/-- Is the character an ASCII letter? -/
def isAsciiAlpha (c : Char) : Bool :=
  ('a' ≤ c ∧ c ≤ 'z') ∨ ('A' ≤ c ∧ c ≤ 'Z')

/-- Split at the first occurrence of `sep`, if any. -/
def splitFirst (sep : Char) : List Char → Option (List Char × List Char)
  | [] => none
  | c :: cs =>
    if c = sep then some ([], cs)
    else match splitFirst sep cs with
      | some (l, r) => some (c :: l, r)
      | none => none

/-- `urlparse(url)` reduced to the `(netloc, path)` pair that
`_market_key_from_url` reads: tab/CR/LF removal, scheme detection,
`//netloc` up to `/?#`, fragment and query split, and the params split on
`;` in the last path segment. -/
def urlNetlocPath (cs0 : List Char) : List Char × List Char :=
  let cs := cs0.filter (fun c => c ≠ '\t' ∧ c ≠ '\r' ∧ c ≠ '\n')
  let afterScheme :=
    match splitFirst ':' cs with
    | some (pre, rest) =>
      let schemeOk : Bool :=
        match pre with
        | c :: rest' => isAsciiAlpha c ∧ rest'.all isSchemeChar
        | [] => false
      if schemeOk then rest else cs
    | none => cs
  let (netloc, afterNetloc) :=
    match afterScheme with
    | '/' :: '/' :: r =>
      (r.takeWhile (fun c => c ≠ '/' ∧ c ≠ '?' ∧ c ≠ '#'),
       r.dropWhile (fun c => c ≠ '/' ∧ c ≠ '?' ∧ c ≠ '#'))
    | r => ([], r)
  let beforeFrag :=
    match splitFirst '#' afterNetloc with
    | some (l, _) => l
    | none => afterNetloc
  let path :=
    match splitFirst '?' beforeFrag with
    | some (l, _) => l
    | none => beforeFrag
  let path :=
    if ';' ∈ path then
      if '/' ∈ path then
        let afterLastSlash := (path.reverse.takeWhile (fun c => c ≠ '/')).reverse
        match splitFirst ';' afterLastSlash with
        | some (seg, _) => path.take (path.length - afterLastSlash.length) ++ seg
        | none => path
      else
        match splitFirst ';' path with
        | some (l, _) => l
        | none => path
    else path
  (netloc, path)

/-- Character class `[A-Z0-9._&-]` of the symbol regex. -/
def isSymbolChar (c : Char) : Bool :=
  ('A' ≤ c ∧ c ≤ 'Z') ∨ ('0' ≤ c ∧ c ≤ '9') ∨
    c = '.' ∨ c = '_' ∨ c = '&' ∨ c = '-'

/-- `_market_key_from_url`. -/
def marketKeyFromUrl (url : Option String) : Option String :=
  match url with
  | none => none
  | some u =>
    if u = "" then none
    else
      let np := urlNetlocPath (stripStr u).data
      let host0 := np.1.map lowChar
      let host := if host0.take 4 = "www.".data then host0.drop 4 else host0
      if host ≠ "zerodha.com".data ∧ host ≠ "thechatter.zerodha.com".data then
        none
      else
        match runsOf (fun c => c ≠ '/') np.2 with
        | [p0, p1, p2, p3] =>
          if lowStr p0 ≠ "markets" ∨ lowStr p1 ≠ "stocks" then none
          else
            let exchange := upStr p2
            let symbol := upStr p3
            if exchange ≠ "NSE" ∧ exchange ≠ "BSE" then none
            else if symbol.data ≠ [] ∧ symbol.data.all isSymbolChar then
              some (String.mk (exchange.data ++ ':' :: symbol.data))
            else none
        | _ => none

/-! ### Resolution engine (`merge_company_variants`) -/

/-- An input raw company (`companies.json` row). -/
structure Company where
  id : String
  name : String
  url : Option String
deriving DecidableEq

/-- A quote or mention row; the payload beyond the three read fields is
opaque and omitted. -/
structure Row where
  id : String
  company_id : String
  edition_id : String
deriving DecidableEq

/-- The engine's mutable state: `companies_by_id`, `market_key_by_company_id`,
the union-find `parent` map and `quarantined_company_reason`. -/
structure ResState where
  companiesById : List (String × Company)
  marketKeyById : List (String × Option String)
  parent : List (String × String)
  quarantine : List (String × String)
deriving DecidableEq

/-- `companies_by_id[id]["name"]` (total model; the source never misses). -/
def nameOf (st : ResState) (id : String) : String :=
  match alGet st.companiesById id with
  | some c => c.name
  | none => ""

/-- `market_key_by_company_id.get(id)`. -/
def lookupMK (st : ResState) (id : String) : Option String :=
  (alGet st.marketKeyById id).getD none

/-- `id in quarantined_company_reason`. -/
def isQuar (st : ResState) (id : String) : Bool :=
  (alGet st.quarantine id).isSome

/-- Chase `parent` pointers for at most `fuel` steps (the source's `find`;
path compression changes no observable root). -/
def findN (parent : List (String × String)) : Nat → String → String
  | 0, x => x
  | fuel + 1, x =>
    match alGet parent x with
    | none => x
    | some p => if p = x then x else findN parent fuel p

/-- `find(company_id)` with sufficient fuel. -/
def findRoot (st : ResState) (x : String) : String :=
  findN st.parent st.parent.length x

/-- `union(left_id, right_id)`: graft the right root under the left root. -/
def unionIds (parent : List (String × String)) (l r : String) :
    List (String × String) :=
  let lr := findN parent parent.length l
  let rr := findN parent parent.length r
  if lr = rr then parent else alSet parent rr lr

/-- Append `x` to the bucket of `k`, creating the bucket at the end if absent
(Python `dict.setdefault(k, []).append(x)`). -/
def bucketAdd {α : Type} (gs : List (String × List α)) (k : String) (x : α) :
    List (String × List α) :=
  match gs with
  | [] => [(k, [x])]
  | (k', xs) :: rest =>
    if k' = k then (k', xs ++ [x]) :: rest else (k', xs) :: bucketAdd rest k x

/-- Count rows attached to a company id (`quote_count_by_company` /
`mention_count_by_company`). -/
def countRows (rows : List Row) (cid : String) : Nat :=
  (rows.filter (fun r => r.company_id = cid)).length

/-- `_component_score`: `(quote_score * 10 + mention_score * 3, size)`. -/
def componentScore (qc mc : String → Nat) (ids : List String) : Nat × Nat :=
  (10 * (ids.map qc).sum + 3 * (ids.map mc).sum, ids.length)

/-- Strict lexicographic `>` on pairs of naturals (Python tuple compare). -/
def pairGT (a b : Nat × Nat) : Bool :=
  a.1 > b.1 ∨ (a.1 = b.1 ∧ a.2 > b.2)

/-- Python `max(x0 :: rest, key=...)` given the strict `>` on keys: later
elements replace the running best only when strictly greater, so the first
maximal element wins ties. -/
def maxByGT {α : Type} (gt : α → α → Bool) (x0 : α) (rest : List α) : α :=
  rest.foldl (fun b x => if gt x b then x else b) x0

/-- Python `min(x0 :: rest, key=...)` given the strict `<` on keys. -/
def minByLT {α : Type} (lt : α → α → Bool) (x0 : α) (rest : List α) : α :=
  rest.foldl (fun b x => if lt x b then x else b) x0

/-- The `component_map` of one market key's group: ids bucketed by their
current root. -/
def componentsIn (st : ResState) (groupIds : List String) :
    List (String × List String) :=
  groupIds.foldl (fun gs i => bucketAdd gs (findRoot st i) i) []

/-- `max(component_map.keys(), key=_component_score)`: the first component
root of maximal score (ties keep the earlier root, as Python `max` does). -/
def primaryRootIn (qc mc : String → Nat) (cm : List (String × List String)) :
    String :=
  match cm with
  | [] => ""
  | c0 :: crest =>
    (maxByGT (fun x y =>
      pairGT (componentScore qc mc x.2) (componentScore qc mc y.2)) c0 crest).1

/-- Quarantine one id with the given reason. -/
def quarStep (v : String) (a : ResState) (i : String) : ResState :=
  { a with quarantine := alSet a.quarantine i v }

/-- `companies_by_id[i]["url"] = None` (no effect when the id is absent,
which cannot happen in the source). -/
def clearCompany (cs : List (String × Company)) (i : String) :
    List (String × Company) :=
  match alGet cs i with
  | some c => alSet cs i { c with url := none }
  | none => cs

/-- Detach one id from its market identity: clear its URL and its market
key. -/
def detachStep (a : ResState) (i : String) : ResState :=
  { a with companiesById := clearCompany a.companiesById i,
           marketKeyById := alSet a.marketKeyById i none }

/-- The per-component effect of the conflict loop: quarantine a quoteless
non-primary component, detach (clear URL and market key of) a quoted one,
leave the primary alone. -/
def conflictEff (qc : String → Nat) (primaryRoot : String) (acc : ResState)
    (rc : String × List String) : ResState :=
  if rc.1 = primaryRoot then acc
  else if (rc.2.map qc).sum = 0 then
    rc.2.foldl (quarStep "market_key_conflict_mentions_only") acc
  else
    rc.2.foldl detachStep acc

/-- The conflict-resolution step of the market-key-first pass, for one market
key's `group_ids` (source lines 562-606): recompute the components inside the
group; when more than one remains, keep the best-scoring component and either
quarantine (no quotes) or detach (quotes present) every other component. -/
def marketConflictStep (qc mc : String → Nat) (st : ResState)
    (groupIds : List String) : ResState :=
  let cm := componentsIn st groupIds
  if cm.length ≤ 1 then st
  else cm.foldl (conflictEff qc (primaryRootIn qc mc cm)) st

/-- The source's nested `for left... for right in group_ids[left+1:]` union
loop, parameterized by the per-pair guard. -/
def pairsUnion (guard : String → String → Bool)
    (parent : List (String × String)) : List String → List (String × String)
  | [] => parent
  | l :: rest =>
    pairsUnion guard
      (rest.foldl (fun par r => if guard l r then unionIds par l r else par)
        parent) rest

/-- The name-bucket pass's per-pair decision (source lines 620-631): the
body of the inner loop, `true` exactly when `union(left, right)` is called. -/
def p3PairGuard (aliasPairs blockPairs : List (String × String))
    (st : ResState) (l r : String) : Bool :=
  if isQuar st l ∨ isQuar st r then false
  else
    let ln := nameOf st l
    let rn := nameOf st r
    let lm := lookupMK st l
    let rm := lookupMK st r
    if pairMem blockPairs (ruleKeyOf ln) (ruleKeyOf rn) then false
    else if lm.isSome ∧ rm.isSome ∧ lm ≠ rm ∧
        ¬pairMem aliasPairs (ruleKeyOf ln) (ruleKeyOf rn) then false
    else compatible ln rn aliasPairs blockPairs

/-- Insert into a sorted duplicate-free string list; folding this models a
Python set whose comparisons (`==`, iteration after `sorted`) are
order-insensitive. -/
def insSorted (x : String) : List String → List String
  | [] => [x]
  | y :: ys =>
    if x = y then y :: ys
    else if strLT x y then x :: y :: ys
    else y :: insSorted x ys

/-- Deduplicate and sort (set-of-strings model). -/
def sortedDedup (xs : List String) : List String :=
  xs.foldl (fun acc x => insSorted x acc) []

/-- `_current_components`: group the non-quarantined company ids of the
input order by their current root. -/
def currentComponents (companies : List Company) (st : ResState) :
    List (String × List String) :=
  companies.foldl (fun gs c =>
    if isQuar st c.id then gs else bucketAdd gs (findRoot st c.id) c.id) []

/-- Strict `>` on the anchor/refinement scoring tuple
`(quote_count, mention_count, has_market_key, name.lower())`. -/
def anchorKeyGT (qc mc : String → Nat) (st : ResState) (x y : String) : Bool :=
  if qc x ≠ qc y then qc x > qc y
  else if mc x ≠ mc y then mc x > mc y
  else if (lookupMK st x).isSome ≠ (lookupMK st y).isSome then
    (lookupMK st x).isSome
  else strLT (lowStr (nameOf st y)) (lowStr (nameOf st x))

/-- `component_anchor_id`: the tuple-maximal member of a component. -/
def componentAnchor (qc mc : String → Nat) (st : ResState)
    (ids : List String) : String :=
  match ids with
  | [] => ""
  | i :: rest => maxByGT (anchorKeyGT qc mc st) i rest

/-- The ordered-pair loop of the cross-bucket anchor pass, over the
precomputed `(anchor, component market-key set)` entries, threading the
union-find map (source lines 666-699; the diagnostic record is omitted). -/
def p4Pairs (aliasPairs blockPairs : List (String × String)) (st0 : ResState)
    (parent : List (String × String)) :
    List (String × List String) → List (String × String)
  | [] => parent
  | (la, lmk) :: rest =>
    let parent' := rest.foldl (fun par rp =>
      let (ra, rmk) := rp
      if findN par par.length la = findN par par.length ra then par
      else if pairMem blockPairs (ruleKeyOf (nameOf st0 la))
          (ruleKeyOf (nameOf st0 ra)) then par
      else if lmk ≠ [] ∧ rmk ≠ [] ∧ lmk ≠ rmk then par
      else if ¬compatible (nameOf st0 la) (nameOf st0 ra) aliasPairs blockPairs
        then par
      else unionIds par la ra) parent
    p4Pairs aliasPairs blockPairs st0 parent' rest

/-- Stable insert for a descending sort: `x` goes before the first element
it is `ge`-related to, so earlier input elements precede ties. -/
def insDescBy {α : Type} (ge : α → α → Bool) (x : α) : List α → List α
  | [] => [x]
  | y :: ys => if ge x y then x :: y :: ys else y :: insDescBy ge x ys

/-- Stable descending sort, the model of Python
`sorted(key=..., reverse=True)`. -/
def sortDescBy {α : Type} (ge : α → α → Bool) (xs : List α) : List α :=
  xs.foldr (insDescBy ge) []

/-- Place a member into the first cluster it is compatible with every
current member of, else open a new cluster at the end (source lines
726-743). -/
def placeInClusters (cmp2 : String → String → Bool) :
    List (List String) → String → List (List String)
  | [], i => [[i]]
  | cl :: rest, i =>
    if cl.all (fun j => cmp2 i j) then (cl ++ [i]) :: rest
    else cl :: placeInClusters cmp2 rest i

/-- Greedy pairwise clustering of a sorted component. -/
def greedyClusters (cmp2 : String → String → Bool) (ids : List String) :
    List (List String) :=
  ids.foldl (placeInClusters cmp2) []

/-- Refine one component (the body of the loop at source lines 710-751):
a single-member component is kept; otherwise the members are sorted by the
scoring tuple and greedily clustered, and a split component is renamed
`root#0, root#1, …`. -/
def refineGroup (aliasPairs blockPairs : List (String × String))
    (qc mc : String → Nat) (st : ResState) (rc : String × List String) :
    List (String × List String) :=
  if rc.2.length ≤ 1 then [(rc.1, rc.2)]
  else
    let sortedIds := sortDescBy (fun x y => !anchorKeyGT qc mc st y x) rc.2
    let clusters := greedyClusters
      (fun i j => compatible (nameOf st i) (nameOf st j) aliasPairs blockPairs)
      sortedIds
    match clusters with
    | [cl] => [(rc.1, cl)]
    | _ =>
      clusters.enum.map (fun ic =>
        (String.mk (rc.1.data ++ '#' :: (Nat.repr ic.1).data), ic.2))

/-- The pairwise-refinement pass (source lines 709-753): split each multi-
member component along the greedy cluster partition.
`refined_grouped_company_ids` is a dict, so each assignment goes through
`alSet`: a synthesized cluster key `root#i` that collides with another
component's key overwrites that entry in place (first-insertion position,
as Python dicts do), silently dropping the overwritten member list. -/
def refineGroups (aliasPairs blockPairs : List (String × String))
    (qc mc : String → Nat) (st : ResState)
    (grouped : List (String × List String)) : List (String × List String) :=
  grouped.foldl (fun acc rc =>
    (refineGroup aliasPairs blockPairs qc mc st rc).foldl
      (fun m kv => alSet m kv.1 kv.2) acc) []

/-- The refinement pass's dict assignments collected in order, before the
dict collapses colliding keys; used to relate `refineGroups` to the
per-component cluster lists. -/
def refineEntries (aliasPairs blockPairs : List (String × String))
    (qc mc : String → Nat) (st : ResState)
    (grouped : List (String × List String)) : List (String × List String) :=
  grouped.foldl (fun acc rc =>
    acc ++ refineGroup aliasPairs blockPairs qc mc st rc) []

/-- `_select_canonical_url`: the first stripped non-empty member URL that
yields a market key. -/
def selectCanonicalUrl (variants : List Company) : Option String :=
  let urls := variants.filterMap (fun c =>
    match c.url with
    | some u => let s := stripStr u; if s = "" then none else some s
    | none => none)
  urls.find? (fun u => (marketKeyFromUrl (some u)).isSome)

/-- Strict `<` on `_select_display_name`'s rank tuple
`(has_legal_suffix, token_count, name_length, name.lower())`. -/
def displayRankLT (x y : Company) : Bool :=
  let sx : Nat := if hasLegalSuffix x.name then 1 else 0
  let sy : Nat := if hasLegalSuffix y.name then 1 else 0
  if sx ≠ sy then sx < sy
  else if (nameTokens x.name).length ≠ (nameTokens y.name).length then
    (nameTokens x.name).length < (nameTokens y.name).length
  else if x.name.data.length ≠ y.name.data.length then
    x.name.data.length < y.name.data.length
  else strLT (lowStr x.name) (lowStr y.name)

/-- Truthiness of `c.get("url")`. -/
def urlTruthy (u : Option String) : Bool :=
  match u with
  | some s => s ≠ ""
  | none => false

/-- Strict `>` on the primary-member scoring tuple of the canonicalization
step (source lines 766-776). -/
def primaryKeyGT (qc mc : String → Nat) (st : ResState) (x y : Company) : Bool :=
  let mx : Nat := if (lookupMK st x.id).isSome then 1 else 0
  let my : Nat := if (lookupMK st y.id).isSome then 1 else 0
  if mx ≠ my then mx > my
  else
    let ux : Nat := if urlTruthy x.url then 1 else 0
    let uy : Nat := if urlTruthy y.url then 1 else 0
    if ux ≠ uy then ux > uy
    else if qc x.id ≠ qc y.id then qc x.id > qc y.id
    else if mc x.id ≠ mc y.id then mc x.id > mc y.id
    else
      let nx : Nat := if hasLegalSuffix x.name then 0 else 1
      let ny : Nat := if hasLegalSuffix y.name then 0 else 1
      if nx ≠ ny then nx > ny
      else x.name.data.length < y.name.data.length

/-- A canonical company record as appended to `merged_companies`. -/
structure CanonicalCompany where
  id : String
  name : String
  url : Option String
  market_key : Option String
  canonical_company_id : String
  identity_source : String
  identity_confidence : String
deriving DecidableEq

/-- One iteration of the canonicalization loop (source lines 759-818): emit
a canonical company for the component and point every member at the primary
id in the alias map.  A component none of whose members resolve (impossible
in the source) contributes nothing.  Diagnostic `merged_groups` records are
omitted. -/
def canonStep (qc mc : String → Nat) (st : ResState)
    (acc : List CanonicalCompany × List (String × String))
    (rc : String × List String) :
    List CanonicalCompany × List (String × String) :=
  match rc.2.filterMap (fun i => alGet st.companiesById i) with
  | [] => acc
  | v0 :: vrest =>
    let cmks := sortedDedup (rc.2.filterMap (fun i => lookupMK st i))
    let primary := maxByGT (primaryKeyGT qc mc st) v0 vrest
    let displayName := (minByLT displayRankLT v0 vrest).name
    let canonicalUrl := selectCanonicalUrl (v0 :: vrest)
    let sourceConf :=
      if rc.2.length > 1 ∧ ¬cmks.isEmpty then
        ("market_key+name", if cmks.length = 1 then "high" else "medium")
      else if rc.2.length > 1 then ("name", "medium")
      else if canonicalUrl.isSome then ("market_key", "high")
      else ("single", "medium")
    (acc.1 ++ [{ id := primary.id, name := displayName, url := canonicalUrl,
                 market_key := marketKeyFromUrl canonicalUrl,
                 canonical_company_id := primary.id,
                 identity_source := sourceConf.1,
                 identity_confidence := sourceConf.2 }],
     rc.2.foldl (fun m i => alSet m i primary.id) acc.2)

/-- The canonicalization loop over all final components. -/
def canonicalizeGroups (qc mc : String → Nat) (st : ResState)
    (groups : List (String × List String)) :
    List CanonicalCompany × List (String × String) :=
  groups.foldl (canonStep qc mc st) ([], [])

/-- The row rewriter (source lines 820-838): drop quarantined rows, retarget
the rest through the alias map, preserving order; also count the drops. -/
def rewriteRows (quar aliasMap : List (String × String)) :
    List Row → List Row × Nat
  | [] => ([], 0)
  | r :: rest =>
    let out := rewriteRows quar aliasMap rest
    if (alGet quar r.company_id).isSome then (out.1, out.2 + 1)
    else ({ r with company_id :=
      (alGet aliasMap r.company_id).getD r.company_id } :: out.1, out.2)

/-- Output of the resolution phases that depend on the quote/mention lists
only through the per-company count functions. -/
structure ResolveOut where
  canonical : List CanonicalCompany
  aliasMap : List (String × String)
  quarantine : List (String × String)
deriving DecidableEq

/-- The engine's initial state: id-keyed maps, self-parent union-find, and
the P0 quarantine pre-pass over the non-company predicate. -/
def initState (companies : List Company) (ncr : NonCompanyRules) : ResState :=
  { companiesById := companies.foldl (fun m c => alSet m c.id c) []
    marketKeyById :=
      companies.foldl (fun m c => alSet m c.id (marketKeyFromUrl c.url)) []
    parent := companies.foldl (fun m c => alSet m c.id c.id) []
    quarantine := companies.foldl (fun q c =>
      let nm := stripStr c.name
      if nm = "" then q
      else if matchesNonCompanyRules nm ncr ∨ looksLikeTopicOrSentence nm then
        alSet q c.id "non_company_label"
      else q) [] }

/-- P1, the alias-rule pass: union every id of the left key with every id of
the right key, for each alias pair (source lines 527-539). -/
def p1AliasPass (companies : List Company)
    (aliasPairs : List (String × String))
    (parent : List (String × String)) : List (String × String) :=
  let idsByRuleKey :=
    companies.foldl (fun gs c => bucketAdd gs (ruleKeyOf c.name) c.id) []
  aliasPairs.foldl (fun par p =>
    if p.1 = p.2 then par
    else
      let lk := if strLE p.1 p.2 then p.1 else p.2
      let rk := if strLE p.1 p.2 then p.2 else p.1
      ((alGet idsByRuleKey lk).getD []).foldl (fun par li =>
        ((alGet idsByRuleKey rk).getD []).foldl (fun par ri =>
          if li ≠ ri then unionIds par li ri else par) par) par) parent

/-- The `market_groups` dict: ids bucketed under their market key. -/
def marketGroupsOf (companies : List Company) (st : ResState) :
    List (String × List String) :=
  companies.foldl (fun gs c =>
    match lookupMK st c.id with
    | none => gs
    | some k => bucketAdd gs k c.id) []

/-- The P2 intra-group union loop (source lines 554-560). -/
def p2UnionPass (aliasPairs blockPairs : List (String × String))
    (st : ResState) (marketGroups : List (String × List String)) :
    List (String × String) :=
  marketGroups.foldl (fun par g =>
    pairsUnion
      (fun l r => compatible (nameOf st l) (nameOf st r) aliasPairs blockPairs)
      par g.2) st.parent

/-- The P3 name-bucket dict (source lines 610-615). -/
def nameGroupsOf (companies : List Company) (st : ResState) :
    List (String × List String) :=
  companies.foldl (fun gs c =>
    if isQuar st c.id then gs
    else
      let k := companyNameKey c.name
      bucketAdd gs (if k = "" then c.id else k) c.id) []

/-- The P4 `(anchor, market-key set)` entries, computed once before the
anchor pair loop. -/
def p4Entries (qc mc : String → Nat) (companies : List Company)
    (st : ResState) : List (String × List String) :=
  (currentComponents companies st).map (fun rc =>
    (componentAnchor qc mc st rc.2,
     sortedDedup (rc.2.filterMap (fun i => lookupMK st i))))

/-- The final grouping of surviving ids by root (source lines 701-705). -/
def groupedIdsOf (companies : List Company) (st : ResState) :
    List (String × List String) :=
  companies.foldl (fun gs c =>
    if isQuar st c.id then gs else bucketAdd gs (findRoot st c.id) c.id) []

/-- The engine state after phases P0-P4 (quarantine pre-pass, alias pass,
market pass with conflict resolution, name buckets, cross-bucket anchors). -/
def stateAfterPasses (companies : List Company) (qc mc : String → Nat)
    (aliasPairs blockPairs : List (String × String)) (ncr : NonCompanyRules) :
    ResState :=
  let st0 := initState companies ncr
  let st1 := { st0 with parent := p1AliasPass companies aliasPairs st0.parent }
  let marketGroups := marketGroupsOf companies st1
  let st2 := { st1 with parent := p2UnionPass aliasPairs blockPairs st1 marketGroups }
  let st3 := marketGroups.foldl
    (fun s (g : String × List String) => marketConflictStep qc mc s g.2) st2
  let st4 := { st3 with parent :=
    (nameGroupsOf companies st3).foldl (fun par (g : String × List String) =>
      pairsUnion (p3PairGuard aliasPairs blockPairs st3) par g.2) st3.parent }
  { st4 with parent :=
      p4Pairs aliasPairs blockPairs st4 st4.parent (p4Entries qc mc companies st4) }

/-- Phases P0-P6 of `merge_company_variants`: everything up to and including
canonicalization, parameterized by the loaded rule sets (file input) and the
per-company quote/mention counts.  The hard-coded Reliance block pair is
added up front as in the source. -/
def resolveCanonical (companies : List Company) (qc mc : String → Nat)
    (aliasPairs blockPairs0 : List (String × String)) (ncr : NonCompanyRules) :
    ResolveOut :=
  let blockPairs := blockPairs0 ++
    [(ruleKeyOf "Reliance Consumer Products", ruleKeyOf "Reliance Industries")]
  let st5 := stateAfterPasses companies qc mc aliasPairs blockPairs ncr
  let refined := refineGroups aliasPairs blockPairs qc mc st5
    (groupedIdsOf companies st5)
  let co := canonicalizeGroups qc mc st5 refined
  { canonical := co.1, aliasMap := co.2, quarantine := st5.quarantine }

/-- Everything `merge_company_variants` returns that the claims mention. -/
structure MergeResult where
  canonical : List CanonicalCompany
  quotes : List Row
  mentions : List Row
  aliasMap : List (String × String)
  quarantine : List (String × String)
  droppedQuotes : Nat
  droppedMentions : Nat
deriving DecidableEq

/-- `merge_company_variants(companies, quotes, mentions)` with the three
rule files passed explicitly (they are ambient file input in the source). -/
def mergeCompanyVariants (companies : List Company) (quotes mentions : List Row)
    (aliasPairs blockPairs : List (String × String)) (ncr : NonCompanyRules) :
    MergeResult :=
  let qc := countRows quotes
  let mc := countRows mentions
  let out := resolveCanonical companies qc mc aliasPairs blockPairs ncr
  let mq := rewriteRows out.quarantine out.aliasMap quotes
  let mm := rewriteRows out.quarantine out.aliasMap mentions
  { canonical := out.canonical, quotes := mq.1, mentions := mm.1,
    aliasMap := out.aliasMap, quarantine := out.quarantine,
    droppedQuotes := mq.2, droppedMentions := mm.2 }

/-- Empty non-company rule file. -/
def ncrEmpty : NonCompanyRules := { exactKeys := [], allowKeys := [], patterns := [] }

/-! ### Brief story mention extraction (`_normalize_alias_phrase`,
`_build_company_alias_map`, `_build_company_alias_specs`,
`_count_story_mentions`, `build_dailybrief_story_mentions`).

Python `set` iteration order is unspecified; sets are modelled as
insertion-ordered duplicate-free lists.  The claims proved below do not
depend on that order. -/

/-- `"&" → " and "` (applied after lowering, before tokenization). -/
def expandAmp : List Char → List Char
  | [] => []
  | c :: cs =>
    if c = '&' then ' ' :: 'a' :: 'n' :: 'd' :: ' ' :: expandAmp cs
    else c :: expandAmp cs

/-- `_normalize_alias_phrase`. -/
def normalizeAliasPhrase (text : String) : String :=
  joinSpace (runsOf isLowAlnum (expandAmp (text.data.map lowChar)))

/-- `slugify`. -/
def slugify (value : String) : String :=
  let rs := runsOf isLowAlnum (value.data.map lowChar)
  if rs.isEmpty then "unknown" else String.mk (joinWith '-' rs)

/-- String concatenation via the underlying character lists. -/
def strCat (a b : String) : String := String.mk (a.data ++ b.data)

/-- Append to a duplicate-free list (Python `set.add`). -/
def insertAbsent (x : String) (xs : List String) : List String :=
  if x ∈ xs then xs else xs ++ [x]

/-- Is the character an ASCII digit? -/
def isDigitChar (c : Char) : Bool := '0' ≤ c ∧ c ≤ '9'

/-- `_company_symbol_from_url`. -/
def companySymbolFromUrl (url : Option String) : Option String :=
  match marketKeyFromUrl url with
  | none => none
  | some mk =>
    match splitFirst ':' mk.data with
    | some (_, sym) =>
      let ns := normalizeAliasPhrase (String.mk sym)
      if 1 < ns.data.length ∧ ns.data.length ≤ 12 then some ns else none
    | none => none

/-- The raw `dailybrief_alias_rules.json` payload (lists as in the file). -/
structure DailyAliasRulesFile where
  company_aliases : List (String × List String)
  alias_overrides : List (String × String)
  blocked_aliases : List String
  strict_companies : List String
  company_blocked_aliases : List (String × List String)

/-- Normalize a phrase list into a duplicate-free list of non-empty
normalized phrases. -/
def parsePhraseSet (xs : List String) : List String :=
  xs.foldl (fun s a =>
    let k := normalizeAliasPhrase a
    if k = "" then s else insertAbsent k s) []

/-- `_load_dailybrief_alias_rules` on a well-typed payload. -/
def loadDailyRules (f : DailyAliasRulesFile) : DailyAliasRulesFile :=
  { company_aliases := f.company_aliases.foldl (fun acc p =>
      let ck := stripStr p.1
      if ck = "" then acc
      else
        let parsed := parsePhraseSet p.2
        if parsed.isEmpty then acc else alSet acc ck parsed) []
    alias_overrides := f.alias_overrides.foldl (fun acc p =>
      let ak := normalizeAliasPhrase p.1
      let ck := stripStr p.2
      if ak = "" ∨ ck = "" then acc else alSet acc ak ck) []
    blocked_aliases := parsePhraseSet f.blocked_aliases
    strict_companies := f.strict_companies.foldl (fun acc cid =>
      let ck := stripStr cid
      if ck = "" then acc else insertAbsent ck acc) []
    company_blocked_aliases := f.company_blocked_aliases.foldl (fun acc p =>
      let ck := stripStr p.1
      if ck = "" then acc
      else
        let parsed := parsePhraseSet p.2
        if parsed.isEmpty then acc else alSet acc ck parsed) [] }

/-- A `merged_groups` record of the resolution report, reduced to the
fields `_merged_member_names_by_canonical_id` reads. -/
structure MergedGroup where
  canonical_id : String
  canonical_name : String
  members : List (String × String)

/-- `_merged_member_names_by_canonical_id`. -/
def mergedMemberNames (groups : List MergedGroup) : List (String × List String) :=
  groups.foldl (fun acc g =>
    let cid := stripStr g.canonical_id
    if cid = "" then acc
    else
      let names0 := let cn := stripStr g.canonical_name
        if cn = "" then [] else [cn]
      let names := g.members.foldl (fun ns m =>
        let mn := stripStr m.2
        if mn = "" then ns else insertAbsent mn ns) names0
      if names.isEmpty then acc
      else
        match alGet acc cid with
        | some existing =>
          alSet acc cid (names.foldl (fun e n => insertAbsent n e) existing)
        | none => alSet acc cid names) []

/-- `_build_company_alias_map`: the candidate alias phrases of each
canonical company, before disambiguation. -/
def buildCompanyAliasMap (companies : List CanonicalCompany)
    (report : List MergedGroup) (rules : DailyAliasRulesFile) :
    List (String × List String) :=
  let memberNames := mergedMemberNames report
  companies.foldl (fun acc company =>
    let cid := stripStr company.id
    if cid = "" then acc
    else
      let companyName := stripStr company.name
      let explicit := parsePhraseSet ((alGet rules.company_aliases cid).getD [])
      let aliases :=
        if cid ∈ rules.strict_companies then explicit
        else
          let a0 :=
            let nn := normalizeAliasPhrase companyName
            if nn = "" then [] else [nn]
          let a1 :=
            let collapsed :=
              normalizeAliasPhrase (joinSpace (normalizedNameTokens companyName))
            if collapsed = "" then a0 else insertAbsent collapsed a0
          let a2 := ((alGet memberNames cid).getD []).foldl (fun s n =>
            let k := normalizeAliasPhrase n
            if k = "" then s else insertAbsent k s) a1
          let a3 := explicit.foldl (fun s k => insertAbsent k s) a2
          let a4 :=
            match companySymbolFromUrl company.url with
            | some sym => insertAbsent sym a3
            | none => a3
          rules.alias_overrides.foldl (fun s p =>
            if p.2 = cid then insertAbsent (normalizeAliasPhrase p.1) s else s) a4
      let blockedForCompany := (alGet rules.company_blocked_aliases cid).getD []
      let kept := aliases.filter (fun a =>
        a ≠ "" ∧ a ∉ rules.blocked_aliases ∧ a ∉ blockedForCompany ∧
          a.data.length ≥ 2 ∧ ¬a.data.all isDigitChar)
      alSet acc cid kept) []

/-- A compiled alias spec; the word-boundary pattern is implicit in the
matcher below. -/
structure AliasSpec where
  phrase : String
  first_token : String
deriving DecidableEq

/-- Build the `{alias, first_token, pattern}` spec of an alias phrase (the
compiled pattern is implicit in the matcher). -/
def mkAliasSpec (a : String) : AliasSpec :=
  { phrase := a, first_token := (runsOf (fun c => c ≠ ' ') a.data).headD "" }

/-- `_build_company_alias_specs`: disambiguate aliases and sort them
longest-first (stable, as `list.sort` is). -/
def buildCompanyAliasSpecs (aliasesBy : List (String × List String))
    (rules : DailyAliasRulesFile) : List (String × List AliasSpec) :=
  let aliasToCompanies := aliasesBy.foldl (fun m p =>
    p.2.foldl (fun m a =>
      match alGet m a with
      | some cids => alSet m a (insertAbsent p.1 cids)
      | none => alSet m a [p.1]) m) []
  aliasesBy.foldl (fun acc p =>
    let cid := p.1
    let specs := p.2.foldl (fun sp a =>
      if a ∈ rules.blocked_aliases then sp
      else
        match alGet rules.alias_overrides a with
        | some oc => if oc ≠ cid then sp else sp ++ [mkAliasSpec a]
        | none =>
          if ((alGet aliasToCompanies a).getD []).length > 1 then sp
          else sp ++ [mkAliasSpec a]) []
    alSet acc cid
      (sortDescBy (fun x y => x.phrase.data.length ≥ y.phrase.data.length) specs))
    []

/-- Match the compiled pattern of `alias` at the head of `txt` (the escaped
alias with each internal blank turned into `\s+`), returning the rest of the
text after the match. -/
def matchAliasFrom : List Char → List Char → Option (List Char)
  | [], txt => some txt
  | a :: as, txt =>
    if a = ' ' then
      match txt with
      | c :: cs =>
        if isSpaceChar c then matchAliasFrom as (cs.dropWhile isSpaceChar)
        else none
      | [] => none
    else
      match txt with
      | c :: cs => if c = a then matchAliasFrom as cs else none
      | [] => none

/-- `pattern.finditer(text)` for an alias pattern with the
`(?<![a-z0-9]) ... (?![a-z0-9])` boundaries: scan left to right, emit
non-overlapping `(start, end)` spans, resume after each match. -/
def findSpansAux (al : List Char) (fuel : Nat) (prevAl : Bool) (pos : Nat)
    (txt : List Char) : List (Nat × Nat) :=
  match fuel with
  | 0 => []
  | fuel + 1 =>
    match txt with
    | [] => []
    | c :: cs =>
      let tryHere :=
        if prevAl then none
        else
          match matchAliasFrom al txt with
          | some rest =>
            match rest with
            | [] => some rest
            | c2 :: _ => if isLowAlnum c2 then none else some rest
          | none => none
      match tryHere with
      | some rest =>
        let len := txt.length - rest.length
        (pos, pos + len) :: findSpansAux al fuel true (pos + len) rest
      | none => findSpansAux al fuel (isLowAlnum c) (pos + 1) cs

/-- All pattern matches of `alias` in the normalized text. -/
def findSpans (al : String) (txt : List Char) : List (Nat × Nat) :=
  if al.data.isEmpty then [] else findSpansAux al.data (txt.length + 1) false 0 txt

/-- `_count_story_mentions`: count the matches of the longest-first alias
specs whose spans do not overlap an already-occupied span. -/
def countStoryMentions (txt : List Char) (specs : List AliasSpec) : Nat :=
  (specs.foldl (fun acc spec =>
    (findSpans spec.phrase txt).foldl (fun acc2 span =>
      let overlaps := acc2.1.any (fun used =>
        ¬(span.2 ≤ used.1 ∨ span.1 ≥ used.2))
      if overlaps then acc2 else (acc2.1 ++ [span], acc2.2 + 1)) acc)
    (([] : List (Nat × Nat)), 0)).2

/-- One story unit of a brief post. -/
structure Story where
  story_id : String
  title : String
  position : Nat
  source : String
  text : String

/-- One brief post. -/
structure BriefPost where
  url : String
  title : String
  date : String
  sitemap_lastmod : String
  stories : List Story

/-- An emitted `StoryMention` row. -/
structure StoryMention where
  company_id : String
  story_id : String
  story_title : String
  story_url : String
  post_title : String
  story_date : String
  story_position : Nat
  story_source : String
  mention_count : Nat
deriving DecidableEq

/-- Emit the matched companies of one story, honoring the global
`(company_id, story_id)` dedupe set (first emission wins). -/
def emitMatches (storyId storyTitle postUrl postTitle storyDate : String)
    (storyPos : Nat) (storySource : String) :
    List (String × Nat) → List (String × String) × List StoryMention →
    List (String × String) × List StoryMention
  | [], acc => acc
  | (cid, n) :: rest, (seen, rows) =>
    if (cid, storyId) ∈ seen then
      emitMatches storyId storyTitle postUrl postTitle storyDate storyPos
        storySource rest (seen, rows)
    else
      emitMatches storyId storyTitle postUrl postTitle storyDate storyPos
        storySource rest
        (seen ++ [(cid, storyId)],
         rows ++ [{ company_id := cid, story_id := storyId,
                    story_title := storyTitle, story_url := postUrl,
                    post_title := postTitle, story_date := storyDate,
                    story_position := storyPos, story_source := storySource,
                    mention_count := n }])

/-- The per-story matching loop: cheap first-token rejection, then the
span counter; collect `(company_id, count)` with positive counts. -/
def matchedCompanies (specsBy : List (String × List AliasSpec))
    (companyIds : List String) (ntext : String) : List (String × Nat) :=
  let storyTokens := runsOf (fun c => c ≠ ' ') ntext.data
  companyIds.foldl (fun ms cid =>
    let specs := (alGet specsBy cid).getD []
    if specs.isEmpty then ms
    else if ¬specs.any (fun sp => sp.first_token ∈ storyTokens) then ms
    else
      let n := countStoryMentions ntext.data specs
      if n > 0 then ms ++ [(cid, n)] else ms) []

/-- The story loop of `build_dailybrief_story_mentions`. -/
def storiesLoop (specsBy : List (String × List AliasSpec))
    (companyIds : List String) (postUrl postTitle storyDate : String) :
    List Story → List (String × String) × List StoryMention →
    List (String × String) × List StoryMention
  | [], acc => acc
  | story :: rest, acc =>
    let storyTitle :=
      let t := stripStr story.title
      if t ≠ "" then t else if postTitle ≠ "" then postTitle
      else "Daily Brief story"
    let storyId :=
      let s := stripStr story.story_id
      if s ≠ "" then s
      else slugify (strCat postUrl (strCat "-" (strCat (Nat.repr story.position)
        (strCat "-" storyTitle))))
    let ntext := normalizeAliasPhrase (stripStr story.text)
    let acc' :=
      if ntext = "" then acc
      else
        let matched := matchedCompanies specsBy companyIds ntext
        if matched.isEmpty then acc
        else emitMatches storyId storyTitle postUrl postTitle storyDate
          story.position story.source matched acc
    storiesLoop specsBy companyIds postUrl postTitle storyDate rest acc'

/-- The post loop of `build_dailybrief_story_mentions`. -/
def postsLoop (specsBy : List (String × List AliasSpec))
    (companyIds : List String) :
    List BriefPost → List (String × String) × List StoryMention →
    List (String × String) × List StoryMention
  | [], acc => acc
  | post :: rest, acc =>
    let postUrl := stripStr post.url
    let acc' :=
      if postUrl = "" then acc
      else
        let postTitle := stripStr post.title
        let storyDate := stripStr
          (if post.date ≠ "" then post.date else post.sitemap_lastmod)
        storiesLoop specsBy companyIds postUrl postTitle storyDate
          post.stories acc
    postsLoop specsBy companyIds rest acc'

/-- `build_dailybrief_story_mentions(companies, resolution_report, posts)`,
with the alias-rule file passed explicitly. -/
def buildDailybriefStoryMentions (companies : List CanonicalCompany)
    (report : List MergedGroup) (posts : List BriefPost)
    (rulesFile : DailyAliasRulesFile) : List StoryMention :=
  let rules := loadDailyRules rulesFile
  let aliasesBy := buildCompanyAliasMap companies report rules
  let specsBy := buildCompanyAliasSpecs aliasesBy rules
  let companyIds := companies.filterMap (fun c =>
    let s := stripStr c.id
    if s = "" then none else some s)
  (postsLoop specsBy companyIds posts ([], [])).2

/-! ### Spec-side condition definitions used by the refinement claims -/

/-- The name-bucket union condition exactly as the claim words it: neither
quarantined, pair not blocked, (both market keys absent, or both present and
equal, or the pair is an alias pair), and compatible. -/
def p3ClaimCond (aliasPairs blockPairs : List (String × String))
    (st : ResState) (l r : String) : Bool :=
  !isQuar st l && !isQuar st r &&
    !pairMem blockPairs (ruleKeyOf (nameOf st l)) (ruleKeyOf (nameOf st r)) &&
    (((lookupMK st l).isNone && (lookupMK st r).isNone) ||
      ((lookupMK st l).isSome && decide (lookupMK st l = lookupMK st r)) ||
      pairMem aliasPairs (ruleKeyOf (nameOf st l)) (ruleKeyOf (nameOf st r))) &&
    compatible (nameOf st l) (nameOf st r) aliasPairs blockPairs

/-- The amended name-bucket union condition: as the claim, except that the
market-key alternative reads "at least one side has no market key, or the
two keys are equal, or the pair is an alias pair". -/
def p3AmendedCond (aliasPairs blockPairs : List (String × String))
    (st : ResState) (l r : String) : Bool :=
  !isQuar st l && !isQuar st r &&
    !pairMem blockPairs (ruleKeyOf (nameOf st l)) (ruleKeyOf (nameOf st r)) &&
    ((lookupMK st l).isNone || (lookupMK st r).isNone ||
      decide (lookupMK st l = lookupMK st r) ||
      pairMem aliasPairs (ruleKeyOf (nameOf st l)) (ruleKeyOf (nameOf st r))) &&
    compatible (nameOf st l) (nameOf st r) aliasPairs blockPairs

/-- Does the path read exactly `/markets/stocks/<EXCHANGE>/<SYMBOL>/`, with
the exchange literally `NSE` or `BSE` and the symbol matching
`[A-Z0-9._&-]+`?  This is the claim's wording of the URL format contract. -/
def c7ClaimPathOk (path : List Char) : Bool :=
  match splitFirst '/' path with
  | some ([], rest) =>
    match dropLit "markets/stocks/".data rest with
    | none => false
    | some rest2 =>
      let ex := rest2.takeWhile (fun c => c ≠ '/')
      let rest3 := rest2.dropWhile (fun c => c ≠ '/')
      if ex ≠ "NSE".data ∧ ex ≠ "BSE".data then false
      else
        match rest3 with
        | '/' :: rest4 =>
          let sym := rest4.takeWhile (fun c => c ≠ '/')
          sym ≠ [] ∧ sym.all isSymbolChar ∧ rest4.drop sym.length = ['/']
        | _ => false
  | _ => false

/-- The market-key extractor as the claim describes it: the recognized host
and the exact-path contract, returning `EXCHANGE:SYMBOL` on success. -/
def c7ClaimKey (url : Option String) : Option String :=
  match url with
  | none => none
  | some u =>
    if u = "" then none
    else
      let np := urlNetlocPath (stripStr u).data
      let host0 := np.1.map lowChar
      let host := if host0.take 4 = "www.".data then host0.drop 4 else host0
      if (host = "zerodha.com".data ∨ host = "thechatter.zerodha.com".data) ∧
          c7ClaimPathOk np.2 then
        match runsOf (fun c => c ≠ '/') np.2 with
        | [_, _, p2, p3] => some (String.mk (p2.data ++ ':' :: p3.data))
        | _ => none
      else none

/-- The amended market-key contract: the recognized host, and a path whose
non-empty segments are exactly four, the first two case-insensitively
`markets` and `stocks`, the third uppercasing to `NSE` or `BSE`, and the
fourth uppercasing to a match of `[A-Z0-9._&-]+`; the key is built from the
uppercased third and fourth segments. -/
def c7AmendedKey (url : Option String) : Option String :=
  match url with
  | none => none
  | some u =>
    if u = "" then none
    else
      let np := urlNetlocPath (stripStr u).data
      let host0 := np.1.map lowChar
      let host := if host0.take 4 = "www.".data then host0.drop 4 else host0
      if host = "zerodha.com".data ∨ host = "thechatter.zerodha.com".data then
        match runsOf (fun c => c ≠ '/') np.2 with
        | [p0, p1, p2, p3] =>
          if lowStr p0 = "markets" ∧ lowStr p1 = "stocks" ∧
              (upStr p2 = "NSE" ∨ upStr p2 = "BSE") ∧
              (upStr p3).data ≠ [] ∧ (upStr p3).data.all isSymbolChar then
            some (String.mk ((upStr p2).data ++ ':' :: (upStr p3).data))
          else none
        | _ => none
      else none

/-- All ids of a bucketed grouping, in bucket order. -/
def joinIds (groups : List (String × List String)) : List String :=
  (groups.map Prod.snd).flatten

/-! ### Concrete inputs used by counterexamples and failing-input theorems -/

/-- Failing input for the market-key uniqueness invariant: `a` and `c` share
`NSE:X` and are compatible (so the market pass sees one component and keeps
both), `b` bridges to `a` but is incompatible with `c`, so the pairwise
refinement splits `c` off again with its URL intact. -/
def c1Companies : List Company :=
  [{ id := "a", name := "A B C",
     url := some "https://zerodha.com/markets/stocks/NSE/X/" },
   { id := "b", name := "A B C Q", url := none },
   { id := "c", name := "A B C Z",
     url := some "https://zerodha.com/markets/stocks/NSE/X/" }]

/-- Quotes of the failing input: two for `a`, one for `b`. -/
def c1Quotes : List Row :=
  [{ id := "q1", company_id := "a", edition_id := "e1" },
   { id := "q2", company_id := "a", edition_id := "e1" },
   { id := "q3", company_id := "b", edition_id := "e1" }]

/-- The C2 failing input: the C1 trio plus a fourth raw company whose id is
literally `a#0`, colliding with the cluster key the refinement pass
synthesizes for the `[a, b]` cluster of the merged component. -/
def c2Companies : List Company :=
  c1Companies ++ [{ id := "a#0", name := "Qqq Zzz", url := none }]

/-- A state with two raw companies of identical name, one carrying a market
key and one without. -/
def c5State : ResState :=
  { companiesById :=
      [("x", { id := "x", name := "Foo Bar",
               url := some "https://zerodha.com/markets/stocks/NSE/FOO/" }),
       ("y", { id := "y", name := "Foo Bar", url := none })]
    marketKeyById := [("x", some "NSE:FOO"), ("y", none)]
    parent := [("x", "x"), ("y", "y")]
    quarantine := [] }

/-- Two raw companies with the same name and no rules: the canonical id is
whichever comes first, so permuting the input changes the output. -/
def c3CompaniesXY : List Company :=
  [{ id := "x", name := "Acme", url := none },
   { id := "y", name := "Acme", url := none }]

/-- The same two companies in the opposite order. -/
def c3CompaniesYX : List Company :=
  [{ id := "y", name := "Acme", url := none },
   { id := "x", name := "Acme", url := none }]

/-- A state with two one-member components sharing market key `NSE:Z`;
`x` carries the only quote. -/
def c6State : ResState :=
  { companiesById :=
      [("x", { id := "x", name := "Foo",
               url := some "https://zerodha.com/markets/stocks/NSE/Z/" }),
       ("y", { id := "y", name := "Bar",
               url := some "https://zerodha.com/markets/stocks/NSE/Z/" })]
    marketKeyById := [("x", some "NSE:Z"), ("y", some "NSE:Z")]
    parent := [("x", "x"), ("y", "y")]
    quarantine := [] }

/-- The quote-count function of the C6 witness: one quote for `x`. -/
def c6qc : String → Nat :=
  countRows [{ id := "q1", company_id := "x", edition_id := "e" }]

/-! ### Claim C1 -/

/-- C1: the invariant "no two distinct canonical companies carry the same
non-empty market_key" fails: on `c1Companies` with `c1Quotes`, the engine
emits two canonical companies that both carry `NSE:X`, because the pairwise
refinement pass splits a component after the market-conflict pass already
ran, and neither side loses its URL. -/
theorem C1_market_key_uniqueness_fails :
    ∃ d1 ∈ (mergeCompanyVariants c1Companies c1Quotes [] [] [] ncrEmpty).canonical,
      ∃ d2 ∈ (mergeCompanyVariants c1Companies c1Quotes [] [] [] ncrEmpty).canonical,
        d1.id ≠ d2.id ∧ d1.market_key = some "NSE:X" ∧
          d2.market_key = some "NSE:X" := by decide

/-! ### Claim C4 -/

/-- C4 counterexample: the compatibility predicate is not symmetric.  With
equal-length normalized token lists the token-subset step only tests
`set(left) ⊆ set(right)`, so `"Aa Aa Bb"` (token set `{aa, bb}`) is
compatible with `"Aa Bb Cc"` (token set `{aa, bb, cc}`) but not
conversely. -/
theorem C4_compatible_not_symmetric :
    compatible "Aa Aa Bb" "Aa Bb Cc" [] [] = true ∧
      compatible "Aa Bb Cc" "Aa Aa Bb" [] [] = false := by decide

/-! ### Claim C5 -/

/-- C5 counterexample: in the name-bucket pass the code unions a pair where
exactly one side carries a market key (the claim's condition requires both
sides to have none, to share one, or to be an alias pair). -/
theorem C5_guard_differs_from_claim :
    p3PairGuard [] [] c5State "x" "y" = true ∧
      p3ClaimCond [] [] c5State "x" "y" = false := by decide

/-- C5 amended: two surviving ids in the same name bucket are unioned iff
neither is quarantined, their pair is not blocked, at least one side has no
market key or both keys are equal or the pair is an alias pair, and the
names are compatible. -/
theorem C5_guard_amended (aliasPairs blockPairs : List (String × String))
    (st : ResState) (l r : String) :
    p3PairGuard aliasPairs blockPairs st l r =
      p3AmendedCond aliasPairs blockPairs st l r := by
  simp only [p3PairGuard, p3AmendedCond]
  cases hq1 : isQuar st l <;> cases hq2 : isQuar st r <;>
    cases hb : pairMem blockPairs (ruleKeyOf (nameOf st l))
      (ruleKeyOf (nameOf st r)) <;>
    cases ha : pairMem aliasPairs (ruleKeyOf (nameOf st l))
      (ruleKeyOf (nameOf st r)) <;>
    rcases hl : lookupMK st l with _ | lk <;>
    rcases hr : lookupMK st r with _ | rk <;>
    simp [hq1, hq2, hb, ha, hl, hr]

/-! ### Claim C7 -/

/-- C7 counterexample: the extractor accepts a path without the trailing
slash (and lowercase segments), which the claim's exact-path contract
rejects. -/
theorem C7_accepts_paths_outside_claim_contract :
    marketKeyFromUrl (some "https://zerodha.com/markets/stocks/NSE/TCS")
        = some "NSE:TCS" ∧
      c7ClaimKey (some "https://zerodha.com/markets/stocks/NSE/TCS") = none ∧
      c7ClaimKey (some "https://zerodha.com/markets/stocks/NSE/TCS/")
        = some "NSE:TCS" := by decide

/-- C7 amended: the extractor returns exactly what the amended contract
describes — recognized host, exactly four non-empty path segments, the
first two case-insensitively `markets`/`stocks`, the third uppercasing to
an exchange, the fourth uppercasing to a symbol match. -/
theorem C7_market_key_amended (url : Option String) :
    marketKeyFromUrl url = c7AmendedKey url := by
  cases url with
  | none => rfl
  | some u =>
    simp only [marketKeyFromUrl, c7AmendedKey]
    by_cases hu : u = ""
    · simp [hu]
    · simp only [if_neg hu]
      generalize (if ((urlNetlocPath (stripStr u).data).1.map lowChar).take 4
            = "www.".data then
            ((urlNetlocPath (stripStr u).data).1.map lowChar).drop 4
          else (urlNetlocPath (stripStr u).data).1.map lowChar) = host
      generalize runsOf (fun c => c ≠ '/') (urlNetlocPath (stripStr u).data).2
        = parts
      rcases parts with _ | ⟨p0, _ | ⟨p1, _ | ⟨p2, _ | ⟨p3, _ | ⟨p4, ps⟩⟩⟩⟩⟩ <;>
        dsimp only <;>
        first
          | rfl
          | (split_ifs <;> first | rfl | tauto)

/-! ### Claim C3 -/

/-- C3 counterexample: permuting the input `companies` array changes the
canonical output — with two identically-named companies the primary-member
tie-break keeps whichever came first, so the canonical id flips. -/
theorem C3_not_order_independent :
    c3CompaniesYX.Perm c3CompaniesXY ∧
      (mergeCompanyVariants c3CompaniesXY [] [] [] [] ncrEmpty).canonical.map
        CanonicalCompany.id = ["x"] ∧
      (mergeCompanyVariants c3CompaniesYX [] [] [] [] ncrEmpty).canonical.map
        CanonicalCompany.id = ["y"] := by
  exact ⟨List.Perm.swap _ _ _, by decide, by decide⟩

/-- C3 amended: permuting the `quotes` and `mentions` arrays leaves the
entire canonical part of the output unchanged (the rows enter resolution
only through per-company counts); permuting `companies` does not, in
general. -/
theorem C3_canonical_ignores_row_order (companies : List Company)
    (qs qs' ms ms' : List Row) (ap bp : List (String × String))
    (ncr : NonCompanyRules) (hq : qs.Perm qs') (hm : ms.Perm ms') :
    (mergeCompanyVariants companies qs ms ap bp ncr).canonical =
        (mergeCompanyVariants companies qs' ms' ap bp ncr).canonical ∧
      (mergeCompanyVariants companies qs ms ap bp ncr).aliasMap =
        (mergeCompanyVariants companies qs' ms' ap bp ncr).aliasMap ∧
      (mergeCompanyVariants companies qs ms ap bp ncr).quarantine =
        (mergeCompanyVariants companies qs' ms' ap bp ncr).quarantine := by
  have hqc : countRows qs = countRows qs' := by
    funext cid
    simp only [countRows, ← List.countP_eq_length_filter]
    exact hq.countP_eq _
  have hmc : countRows ms = countRows ms' := by
    funext cid
    simp only [countRows, ← List.countP_eq_length_filter]
    exact hm.countP_eq _
  have h : resolveCanonical companies (countRows qs) (countRows ms) ap bp ncr =
      resolveCanonical companies (countRows qs') (countRows ms') ap bp ncr := by
    rw [hqc, hmc]
  exact ⟨congrArg ResolveOut.canonical h, congrArg ResolveOut.aliasMap h,
    congrArg ResolveOut.quarantine h⟩

/-- C3 witness: a concrete permutation of two quote rows. -/
theorem C3_canonical_ignores_row_order_witness :
    (([{ id := "q1", company_id := "x", edition_id := "e" },
       { id := "q2", company_id := "y", edition_id := "e" }] : List Row).Perm
      [{ id := "q2", company_id := "y", edition_id := "e" },
       { id := "q1", company_id := "x", edition_id := "e" }]) ∧
      ((mergeCompanyVariants c3CompaniesXY
          [{ id := "q1", company_id := "x", edition_id := "e" },
           { id := "q2", company_id := "y", edition_id := "e" }] [] [] []
          ncrEmpty).canonical =
        (mergeCompanyVariants c3CompaniesXY
          [{ id := "q2", company_id := "y", edition_id := "e" },
           { id := "q1", company_id := "x", edition_id := "e" }] [] [] []
          ncrEmpty).canonical ∧
      (mergeCompanyVariants c3CompaniesXY
          [{ id := "q1", company_id := "x", edition_id := "e" },
           { id := "q2", company_id := "y", edition_id := "e" }] [] [] []
          ncrEmpty).aliasMap =
        (mergeCompanyVariants c3CompaniesXY
          [{ id := "q2", company_id := "y", edition_id := "e" },
           { id := "q1", company_id := "x", edition_id := "e" }] [] [] []
          ncrEmpty).aliasMap ∧
      (mergeCompanyVariants c3CompaniesXY
          [{ id := "q1", company_id := "x", edition_id := "e" },
           { id := "q2", company_id := "y", edition_id := "e" }] [] [] []
          ncrEmpty).quarantine =
        (mergeCompanyVariants c3CompaniesXY
          [{ id := "q2", company_id := "y", edition_id := "e" },
           { id := "q1", company_id := "x", edition_id := "e" }] [] [] []
          ncrEmpty).quarantine) :=
  ⟨List.Perm.swap _ _ _,
   C3_canonical_ignores_row_order c3CompaniesXY _ _ _ _ [] [] ncrEmpty
     (List.Perm.swap _ _ _) (List.Perm.refl [])⟩

/-! ### Claim C4, amended part -/

/-- Membership of an unordered pair in a rule set does not depend on the
order of the two names. -/
theorem pairMem_symm (ps : List (String × String)) (x y : String) :
    pairMem ps x y = pairMem ps y x := by
  induction ps with
  | nil => rfl
  | cons p rest ih =>
    simp only [pairMem, List.any_cons] at *
    rw [ih]
    congr 1
    exact decide_eq_decide.mpr or_comm

/-- C4 amended: the compatibility predicate is symmetric provided the
similarity score is itself symmetric at the pair and the two normalized
token lists have different lengths (when the lengths are equal, the
token-subset step compares only left-inside-right, and the Ratcliff/
Obershelp score is order-sensitive in general). -/
theorem C4_compatible_symm_amended (a b : String)
    (ap bp : List (String × String))
    (hsim : simGE93 (joinSpace (normalizedNameTokens a))
        (joinSpace (normalizedNameTokens b)) =
      simGE93 (joinSpace (normalizedNameTokens b))
        (joinSpace (normalizedNameTokens a)))
    (hlen : (normalizedNameTokens a).length ≠ (normalizedNameTokens b).length) :
    compatible a b ap bp = compatible b a ap bp := by
  have hpb := pairMem_symm bp (ruleKeyOf b) (ruleKeyOf a)
  have hpa := pairMem_symm ap (ruleKeyOf b) (ruleKeyOf a)
  simp only [compatible, hpb, hpa]
  by_cases e1 : ruleKeyOf a = ""
  · simp [e1]
  by_cases e2 : ruleKeyOf b = ""
  · simp [e1, e2]
  simp only [e1, e2, or_self, if_false, if_neg, ite_false]
  by_cases hB : pairMem bp (ruleKeyOf a) (ruleKeyOf b) = true
  · simp [e1, e2, hB]
  by_cases hA : pairMem ap (ruleKeyOf a) (ruleKeyOf b) = true
  · simp [e1, e2, hB, hA]
  by_cases hE1 : (normalizedNameTokens a).isEmpty = true
  · simp [e1, e2, hB, hA, hE1]
  by_cases hE2 : (normalizedNameTokens b).isEmpty = true
  · simp [e1, e2, hB, hA, hE1, hE2]
  by_cases hEq : normalizedNameTokens a = normalizedNameTokens b
  · exact absurd (congrArg List.length hEq) hlen
  have hEq' : ¬(normalizedNameTokens b = normalizedNameTokens a) :=
    fun h => hEq h.symm
  by_cases hJ : joinAll (normalizedNameTokens a) = joinAll (normalizedNameTokens b)
  · simp [e1, e2, hB, hA, hE1, hE2, hEq, hEq', hJ]
  have hJ' : ¬(joinAll (normalizedNameTokens b) = joinAll (normalizedNameTokens a)) :=
    fun h => hJ h.symm
  rcases Nat.lt_or_ge (normalizedNameTokens a).length
      (normalizedNameTokens b).length with hlt | hge
  · have h1 : (normalizedNameTokens a).length ≤ (normalizedNameTokens b).length :=
      Nat.le_of_lt hlt
    have h2 : ¬((normalizedNameTokens b).length ≤ (normalizedNameTokens a).length) :=
      Nat.not_le.mpr hlt
    simp only [e1, e2, hB, hA, hE1, hE2, hEq, hEq', hJ, hJ', h1, h2, ← hsim,
      if_true, if_false, ite_true, ite_false, if_pos, if_neg, or_self,
      Bool.false_eq_true, not_false_eq_true]
    by_cases hS : simGE93 (joinSpace (normalizedNameTokens a))
        (joinSpace (normalizedNameTokens b)) = true
    · simp [hS]
    · simp only [hS, if_neg, ite_false, Bool.false_eq_true]
      by_cases t1 : matchesTrailingInitialism
          (stripSuffixTokens (nameTokens a) ACRONYM_SUFFIX_STRIP_TOKENS)
          (stripSuffixTokens (nameTokens b) ACRONYM_SUFFIX_STRIP_TOKENS) = true <;>
        by_cases t2 : matchesTrailingInitialism
          (stripSuffixTokens (nameTokens b) ACRONYM_SUFFIX_STRIP_TOKENS)
          (stripSuffixTokens (nameTokens a) ACRONYM_SUFFIX_STRIP_TOKENS) = true <;>
        by_cases f1 : matchesFullInitialism
          (stripSuffixTokens (nameTokens a) ACRONYM_SUFFIX_STRIP_TOKENS)
          (stripSuffixTokens (nameTokens b) ACRONYM_SUFFIX_STRIP_TOKENS) = true <;>
        by_cases f2 : matchesFullInitialism
          (stripSuffixTokens (nameTokens b) ACRONYM_SUFFIX_STRIP_TOKENS)
          (stripSuffixTokens (nameTokens a) ACRONYM_SUFFIX_STRIP_TOKENS) = true <;>
        simp [t1, t2, f1, f2, hS]
  · have hlt' : (normalizedNameTokens b).length < (normalizedNameTokens a).length :=
      lt_of_le_of_ne hge (fun h => hlen h.symm)
    have h1 : (normalizedNameTokens b).length ≤ (normalizedNameTokens a).length :=
      Nat.le_of_lt hlt'
    have h2 : ¬((normalizedNameTokens a).length ≤ (normalizedNameTokens b).length) :=
      Nat.not_le.mpr hlt'
    simp only [e1, e2, hB, hA, hE1, hE2, hEq, hEq', hJ, hJ', h1, h2, ← hsim,
      if_true, if_false, ite_true, ite_false, if_pos, if_neg, or_self,
      Bool.false_eq_true, not_false_eq_true]
    by_cases hS : simGE93 (joinSpace (normalizedNameTokens a))
        (joinSpace (normalizedNameTokens b)) = true
    · simp [hS]
    · simp only [hS, if_neg, ite_false, Bool.false_eq_true]
      by_cases t1 : matchesTrailingInitialism
          (stripSuffixTokens (nameTokens a) ACRONYM_SUFFIX_STRIP_TOKENS)
          (stripSuffixTokens (nameTokens b) ACRONYM_SUFFIX_STRIP_TOKENS) = true <;>
        by_cases t2 : matchesTrailingInitialism
          (stripSuffixTokens (nameTokens b) ACRONYM_SUFFIX_STRIP_TOKENS)
          (stripSuffixTokens (nameTokens a) ACRONYM_SUFFIX_STRIP_TOKENS) = true <;>
        by_cases f1 : matchesFullInitialism
          (stripSuffixTokens (nameTokens a) ACRONYM_SUFFIX_STRIP_TOKENS)
          (stripSuffixTokens (nameTokens b) ACRONYM_SUFFIX_STRIP_TOKENS) = true <;>
        by_cases f2 : matchesFullInitialism
          (stripSuffixTokens (nameTokens b) ACRONYM_SUFFIX_STRIP_TOKENS)
          (stripSuffixTokens (nameTokens a) ACRONYM_SUFFIX_STRIP_TOKENS) = true <;>
        simp [t1, t2, f1, f2, hS]

/-- C4 amended witness: a concrete pair with token lists of different
lengths and a (symmetric) similarity score. -/
theorem C4_compatible_symm_amended_witness :
    (simGE93 (joinSpace (normalizedNameTokens "Acme"))
        (joinSpace (normalizedNameTokens "Acme India")) =
      simGE93 (joinSpace (normalizedNameTokens "Acme India"))
        (joinSpace (normalizedNameTokens "Acme"))) ∧
      (normalizedNameTokens "Acme").length ≠
        (normalizedNameTokens "Acme India").length ∧
      compatible "Acme" "Acme India" [] [] = compatible "Acme India" "Acme" [] [] :=
  ⟨by decide, by decide,
   C4_compatible_symm_amended "Acme" "Acme India" [] [] (by decide) (by decide)⟩

/-! ### Association-list and bucketing toolkit -/

theorem alGet_alSet_self {α : Type} (m : List (String × α)) (k : String)
    (v : α) : alGet (alSet m k v) k = some v := by
  induction m with
  | nil => simp [alSet, alGet]
  | cons p rest ih =>
    obtain ⟨k', v'⟩ := p
    by_cases h : k' = k
    · simp [alSet, alGet, h]
    · simp [alSet, alGet, h, ih]

theorem alGet_alSet_ne {α : Type} (m : List (String × α)) (k x : String)
    (v : α) (h : x ≠ k) : alGet (alSet m k v) x = alGet m x := by
  induction m with
  | nil => simp [alSet, alGet, Ne.symm h]
  | cons p rest ih =>
    obtain ⟨k', v'⟩ := p
    simp only [alSet]
    by_cases hk : k' = k
    · subst hk
      rw [if_pos rfl]
      simp only [alGet]
      rw [if_neg (Ne.symm h), if_neg (Ne.symm h)]
    · rw [if_neg hk]
      simp only [alGet]
      by_cases hx : k' = x
      · rw [if_pos hx, if_pos hx]
      · rw [if_neg hx, if_neg hx]
        exact ih

theorem alGet_foldl_alSet_const_not_mem {α : Type} (v : α) (l : List String)
    (m : List (String × α)) (x : String) (hx : x ∉ l) :
    alGet (l.foldl (fun m i => alSet m i v) m) x = alGet m x := by
  induction l generalizing m with
  | nil => rfl
  | cons i rest ih =>
    simp only [List.foldl_cons]
    rw [ih _ (fun h => hx (List.mem_cons_of_mem _ h)),
      alGet_alSet_ne _ _ _ _
        (fun h => hx (by rw [h]; exact List.mem_cons_self _ _))]

theorem alGet_foldl_alSet_const_mem {α : Type} (v : α) (l : List String)
    (m : List (String × α)) (x : String) (hx : x ∈ l) :
    alGet (l.foldl (fun m i => alSet m i v) m) x = some v := by
  induction l generalizing m with
  | nil => cases hx
  | cons i rest ih =>
    simp only [List.foldl_cons]
    by_cases hr : x ∈ rest
    · exact ih _ hr
    · have hxi : x = i := by
        rcases List.mem_cons.mp hx with h | h
        · exact h
        · exact absurd h hr
      subst hxi
      rw [alGet_foldl_alSet_const_not_mem _ _ _ _ hr, alGet_alSet_self]

theorem bucketAdd_nil {α : Type} (k : String) (x : α) :
    bucketAdd ([] : List (String × List α)) k x = [(k, [x])] := rfl

theorem bucketAdd_cons_eq {α : Type} (k : String) (xs : List α)
    (rest : List (String × List α)) (x : α) :
    bucketAdd ((k, xs) :: rest) k x = (k, xs ++ [x]) :: rest := by
  simp [bucketAdd]

theorem bucketAdd_cons_ne {α : Type} (k' k : String) (xs : List α)
    (rest : List (String × List α)) (x : α) (h : k' ≠ k) :
    bucketAdd ((k', xs) :: rest) k x = (k', xs) :: bucketAdd rest k x := by
  simp [bucketAdd, h]

theorem mem_keys_bucketAdd {α : Type} (gs : List (String × List α))
    (k : String) (x : α) (y : String) :
    y ∈ (bucketAdd gs k x).map Prod.fst ↔ y ∈ gs.map Prod.fst ∨ y = k := by
  induction gs with
  | nil => simp [bucketAdd_nil]
  | cons p rest ih =>
    obtain ⟨k', xs⟩ := p
    by_cases h : k' = k
    · subst h
      rw [bucketAdd_cons_eq]
      simp only [List.map_cons, List.mem_cons]
      tauto
    · rw [bucketAdd_cons_ne _ _ _ _ _ h]
      simp only [List.map_cons, List.mem_cons, ih]
      tauto

theorem keys_bucketAdd_nodup {α : Type} (gs : List (String × List α))
    (k : String) (x : α) (h : (gs.map Prod.fst).Nodup) :
    ((bucketAdd gs k x).map Prod.fst).Nodup := by
  induction gs with
  | nil => simp [bucketAdd_nil]
  | cons p rest ih =>
    obtain ⟨k', xs⟩ := p
    simp only [List.map_cons, List.nodup_cons] at h
    by_cases hk : k' = k
    · subst hk
      rw [bucketAdd_cons_eq]
      simp only [List.map_cons, List.nodup_cons]
      exact h
    · rw [bucketAdd_cons_ne _ _ _ _ _ hk]
      simp only [List.map_cons, List.nodup_cons]
      refine ⟨fun hm => ?_, ih h.2⟩
      rcases (mem_keys_bucketAdd rest k x k').mp hm with hm | hm
      · exact h.1 hm
      · exact hk hm

theorem bucketAdd_forall {α : Type} (P : String → α → Prop)
    (gs : List (String × List α)) (k : String) (x : α)
    (hgs : ∀ rc ∈ gs, ∀ i ∈ rc.2, P rc.1 i) (hx : P k x) :
    ∀ rc ∈ bucketAdd gs k x, ∀ i ∈ rc.2, P rc.1 i := by
  induction gs with
  | nil =>
    intro rc hrc i hi
    rw [bucketAdd_nil] at hrc
    simp only [List.mem_singleton] at hrc
    subst hrc
    simp only [List.mem_singleton] at hi
    subst hi
    exact hx
  | cons p rest ih =>
    obtain ⟨k', xs⟩ := p
    by_cases h : k' = k
    · subst h
      intro rc hrc i hi
      rw [bucketAdd_cons_eq] at hrc
      rcases List.mem_cons.mp hrc with hrc | hrc
      · subst hrc
        rcases List.mem_append.mp hi with hi | hi
        · exact hgs (k', xs) (List.mem_cons_self _ _) i hi
        · simp only [List.mem_singleton] at hi
          subst hi
          exact hx
      · exact hgs rc (List.mem_cons_of_mem _ hrc) i hi
    · intro rc hrc i hi
      rw [bucketAdd_cons_ne _ _ _ _ _ h] at hrc
      rcases List.mem_cons.mp hrc with hrc | hrc
      · subst hrc
        exact hgs (k', xs) (List.mem_cons_self _ _) i hi
      · exact ih (fun rc h1 i h2 => hgs rc (List.mem_cons_of_mem _ h1) i h2)
          rc hrc i hi

theorem componentsIn_root (st : ResState) (g : List String) :
    ∀ rc ∈ componentsIn st g, ∀ i ∈ rc.2, findRoot st i = rc.1 := by
  have aux : ∀ (l : List String) (acc : List (String × List String)),
      (∀ rc ∈ acc, ∀ i ∈ rc.2, findRoot st i = rc.1) →
      ∀ rc ∈ l.foldl (fun gs i => bucketAdd gs (findRoot st i) i) acc,
        ∀ i ∈ rc.2, findRoot st i = rc.1 := by
    intro l
    induction l with
    | nil => intro acc hacc; exact hacc
    | cons j rest ih =>
      intro acc hacc
      simp only [List.foldl_cons]
      exact ih _ (bucketAdd_forall (fun r i => findRoot st i = r) acc
        (findRoot st j) j hacc rfl)
  exact aux g [] (by intro rc h; cases h)

theorem componentsIn_keys_nodup (st : ResState) (g : List String) :
    ((componentsIn st g).map Prod.fst).Nodup := by
  have aux : ∀ (l : List String) (acc : List (String × List String)),
      (acc.map Prod.fst).Nodup →
      ((l.foldl (fun gs i => bucketAdd gs (findRoot st i) i) acc).map
        Prod.fst).Nodup := by
    intro l
    induction l with
    | nil => intro acc hacc; exact hacc
    | cons j rest ih =>
      intro acc hacc
      simp only [List.foldl_cons]
      exact ih _ (keys_bucketAdd_nodup _ _ _ hacc)
  exact aux g [] List.nodup_nil

/-! ### Effects of the market-conflict step (claim C6) -/

theorem quarFold_eq (v : String) (l : List String) (a : ResState) :
    l.foldl (quarStep v) a =
      { a with quarantine := l.foldl (fun q i => alSet q i v) a.quarantine } := by
  induction l generalizing a with
  | nil => rfl
  | cons i rest ih =>
    simp only [List.foldl_cons]
    rw [ih]
    rfl

theorem detachFold_eq (l : List String) (a : ResState) :
    l.foldl detachStep a =
      { a with companiesById := l.foldl clearCompany a.companiesById,
               marketKeyById :=
                 l.foldl (fun m i => alSet m i none) a.marketKeyById } := by
  induction l generalizing a with
  | nil => rfl
  | cons i rest ih =>
    simp only [List.foldl_cons]
    rw [ih]
    rfl

theorem alGet_foldl_clearCompany_not_mem (l : List String)
    (cs : List (String × Company)) (x : String) (hx : x ∉ l) :
    alGet (l.foldl clearCompany cs) x = alGet cs x := by
  induction l generalizing cs with
  | nil => rfl
  | cons i rest ih =>
    simp only [List.foldl_cons]
    rw [ih _ (fun h => hx (List.mem_cons_of_mem _ h))]
    have hne : x ≠ i := fun h => hx (by rw [h]; exact List.mem_cons_self _ _)
    unfold clearCompany
    cases alGet cs i with
    | none => rfl
    | some c => exact alGet_alSet_ne _ _ _ _ hne

theorem alGet_foldl_clearCompany_mem (l : List String)
    (cs : List (String × Company)) (x : String) (hx : x ∈ l) (c : Company)
    (hc : alGet (l.foldl clearCompany cs) x = some c) : c.url = none := by
  induction l generalizing cs with
  | nil => cases hx
  | cons i rest ih =>
    simp only [List.foldl_cons] at hc
    by_cases hr : x ∈ rest
    · exact ih _ hr hc
    · have hxi : x = i := by
        rcases List.mem_cons.mp hx with h | h
        · exact h
        · exact absurd h hr
      subst hxi
      rw [alGet_foldl_clearCompany_not_mem _ _ _ hr] at hc
      unfold clearCompany at hc
      cases hg : alGet cs x with
      | none => rw [hg] at hc; rw [hg] at hc; cases hc
      | some c0 =>
        rw [hg, alGet_alSet_self] at hc
        cases hc
        rfl

theorem conflictEff_lookups (qc : String → Nat) (pr : String) (a : ResState)
    (rc : String × List String) (i : String) (hi : rc.1 = pr ∨ i ∉ rc.2) :
    alGet (conflictEff qc pr a rc).quarantine i = alGet a.quarantine i ∧
      alGet (conflictEff qc pr a rc).companiesById i =
        alGet a.companiesById i ∧
      alGet (conflictEff qc pr a rc).marketKeyById i =
        alGet a.marketKeyById i := by
  unfold conflictEff
  rcases hi with hp | hni
  · rw [if_pos hp]
    exact ⟨rfl, rfl, rfl⟩
  · split_ifs with h1 h2
    · exact ⟨rfl, rfl, rfl⟩
    · rw [quarFold_eq]
      exact ⟨alGet_foldl_alSet_const_not_mem _ _ _ _ hni, rfl, rfl⟩
    · rw [detachFold_eq]
      exact ⟨rfl, alGet_foldl_clearCompany_not_mem _ _ _ hni,
        alGet_foldl_alSet_const_not_mem _ _ _ _ hni⟩

theorem conflictFold_lookups (qc : String → Nat) (pr : String)
    (cms : List (String × List String)) (a : ResState) (i : String)
    (h : ∀ rc ∈ cms, rc.1 = pr ∨ i ∉ rc.2) :
    alGet ((cms.foldl (conflictEff qc pr) a)).quarantine i =
        alGet a.quarantine i ∧
      alGet ((cms.foldl (conflictEff qc pr) a)).companiesById i =
        alGet a.companiesById i ∧
      alGet ((cms.foldl (conflictEff qc pr) a)).marketKeyById i =
        alGet a.marketKeyById i := by
  induction cms generalizing a with
  | nil => exact ⟨rfl, rfl, rfl⟩
  | cons rc rest ih =>
    simp only [List.foldl_cons]
    have h1 := conflictEff_lookups qc pr a rc i (h rc (List.mem_cons_self _ _))
    have h2 := ih (conflictEff qc pr a rc)
      (fun rc' hrc' => h rc' (List.mem_cons_of_mem _ hrc'))
    exact ⟨h2.1.trans h1.1, h2.2.1.trans h1.2.1, h2.2.2.trans h1.2.2⟩

/-! ### Claim C6 -/

/-- C6: in the market-key-first pass, whenever a market key's group still
holds several components, every non-primary component with zero quotes has
all its members quarantined with reason `market_key_conflict_mentions_only`;
every non-primary component with at least one quote keeps its members (their
quarantine entries are unchanged) but has their URLs and market keys
cleared; the primary component is untouched. -/
theorem C6_market_conflict_step (qc mc : String → Nat) (st : ResState)
    (ids : List String) (h2 : 2 ≤ (componentsIn st ids).length) :
    (∀ rc ∈ componentsIn st ids,
      rc.1 ≠ primaryRootIn qc mc (componentsIn st ids) →
      (((rc.2.map qc).sum = 0 → ∀ i ∈ rc.2,
          alGet (marketConflictStep qc mc st ids).quarantine i =
            some "market_key_conflict_mentions_only") ∧
        ((rc.2.map qc).sum ≠ 0 → ∀ i ∈ rc.2,
          alGet (marketConflictStep qc mc st ids).quarantine i =
              alGet st.quarantine i ∧
            lookupMK (marketConflictStep qc mc st ids) i = none ∧
            ∀ c, alGet (marketConflictStep qc mc st ids).companiesById i =
              some c → c.url = none))) ∧
      (∀ rc ∈ componentsIn st ids,
        rc.1 = primaryRootIn qc mc (componentsIn st ids) →
        ∀ i ∈ rc.2,
          alGet (marketConflictStep qc mc st ids).quarantine i =
              alGet st.quarantine i ∧
            alGet (marketConflictStep qc mc st ids).companiesById i =
              alGet st.companiesById i ∧
            lookupMK (marketConflictStep qc mc st ids) i = lookupMK st i) := by
  have hroot := componentsIn_root st ids
  have hkeys := componentsIn_keys_nodup st ids
  have hstep : marketConflictStep qc mc st ids =
      (componentsIn st ids).foldl
        (conflictEff qc (primaryRootIn qc mc (componentsIn st ids))) st := by
    unfold marketConflictStep
    rw [if_neg (by omega)]
  rw [hstep]
  set cm := componentsIn st ids with hcm
  set pr := primaryRootIn qc mc cm with hpr
  constructor
  · -- non-primary components
    intro rc hrc hnp
    obtain ⟨pre, post, hps⟩ := List.append_of_mem hrc
    have hdisj : ∀ i ∈ rc.2, ∀ rc' ∈ cm, rc'.1 ≠ rc.1 → i ∉ rc'.2 := by
      intro i hi rc' h' hne hi'
      exact hne ((hroot rc' h' i hi').symm.trans (hroot rc hrc i hi))
    have hkeys' := hkeys
    rw [hps, List.map_append, List.map_cons] at hkeys'
    rcases List.nodup_append.mp hkeys' with ⟨-, hnd2, hdj⟩
    have hpre : ∀ rc' ∈ pre, rc'.1 ≠ rc.1 := by
      intro rc' h' heq
      exact hdj (List.mem_map_of_mem Prod.fst h')
        (heq ▸ List.mem_cons_self _ _)
    have hpost : ∀ rc' ∈ post, rc'.1 ≠ rc.1 := by
      intro rc' h' heq
      rcases List.nodup_cons.mp hnd2 with ⟨hnotin, -⟩
      exact hnotin (heq ▸ List.mem_map_of_mem Prod.fst h')
    have hpremem : ∀ rc' ∈ pre, rc' ∈ cm := by
      intro rc' h'
      rw [hps]
      exact List.mem_append_left _ h'
    have hpostmem : ∀ rc' ∈ post, rc' ∈ cm := by
      intro rc' h'
      rw [hps]
      exact List.mem_append_right _ (List.mem_cons_of_mem _ h')
    have hfold : cm.foldl (conflictEff qc pr) st =
        post.foldl (conflictEff qc pr)
          (conflictEff qc pr (pre.foldl (conflictEff qc pr) st) rc) := by
      conv_lhs => rw [hps]
      rw [List.foldl_append, List.foldl_cons]
    rw [hfold]
    have hprelook : ∀ i ∈ rc.2,
        alGet (pre.foldl (conflictEff qc pr) st).quarantine i =
          alGet st.quarantine i ∧
        alGet (pre.foldl (conflictEff qc pr) st).companiesById i =
          alGet st.companiesById i ∧
        alGet (pre.foldl (conflictEff qc pr) st).marketKeyById i =
          alGet st.marketKeyById i := by
      intro i hi
      refine conflictFold_lookups _ _ _ _ _ (fun rc' h' => ?_)
      exact Or.inr (hdisj i hi rc' (hpremem rc' h') (hpre rc' h'))
    have hpostlook : ∀ (a : ResState), ∀ i ∈ rc.2,
        alGet (post.foldl (conflictEff qc pr) a).quarantine i =
          alGet a.quarantine i ∧
        alGet (post.foldl (conflictEff qc pr) a).companiesById i =
          alGet a.companiesById i ∧
        alGet (post.foldl (conflictEff qc pr) a).marketKeyById i =
          alGet a.marketKeyById i := by
      intro a i hi
      refine conflictFold_lookups _ _ _ _ _ (fun rc' h' => ?_)
      exact Or.inr (hdisj i hi rc' (hpostmem rc' h') (hpost rc' h'))
    constructor
    · -- zero quotes: quarantined
      intro hz i hi
      have heff : conflictEff qc pr (pre.foldl (conflictEff qc pr) st) rc =
          rc.2.foldl (quarStep "market_key_conflict_mentions_only")
            (pre.foldl (conflictEff qc pr) st) := by
        unfold conflictEff
        rw [if_neg hnp, if_pos hz]
      rw [heff, quarFold_eq, (hpostlook _ i hi).1]
      exact alGet_foldl_alSet_const_mem _ _ _ _ hi
    · -- quotes present: detached but kept
      intro hz i hi
      have heff : conflictEff qc pr (pre.foldl (conflictEff qc pr) st) rc =
          rc.2.foldl detachStep (pre.foldl (conflictEff qc pr) st) := by
        unfold conflictEff
        rw [if_neg hnp, if_neg hz]
      rw [heff, detachFold_eq]
      refine ⟨?_, ?_, ?_⟩
      · rw [(hpostlook _ i hi).1]
        exact (hprelook i hi).1
      · unfold lookupMK
        rw [(hpostlook _ i hi).2.2, alGet_foldl_alSet_const_mem _ _ _ _ hi]
        rfl
      · intro c hc
        rw [(hpostlook _ i hi).2.1] at hc
        exact alGet_foldl_clearCompany_mem _ _ _ hi c hc
  · -- the primary component is untouched
    intro rc hrc hp i hi
    have hall : ∀ rc' ∈ cm, rc'.1 = pr ∨ i ∉ rc'.2 := by
      intro rc' h'
      by_cases he : rc'.1 = pr
      · exact Or.inl he
      · refine Or.inr (fun hi' => he ?_)
        rw [(hroot rc' h' i hi').symm.trans (hroot rc hrc i hi), hp]
    have h := conflictFold_lookups qc pr cm st i hall
    refine ⟨h.1, h.2.1, ?_⟩
    unfold lookupMK
    rw [h.2.2]

/-- C6 witness: on `c6State` the conflict step quarantines the quoteless
loser `y`. -/
theorem C6_market_conflict_step_witness :
    2 ≤ (componentsIn c6State ["x", "y"]).length ∧
      alGet (marketConflictStep c6qc (countRows []) c6State
        ["x", "y"]).quarantine "y" = some "market_key_conflict_mentions_only" :=
  ⟨by decide,
   ((C6_market_conflict_step c6qc (countRows []) c6State ["x", "y"]
        (by decide)).1 ("y", ["y"]) (by decide) (by decide)).1 (by decide)
     "y" (by decide)⟩

/-! ### Permutation lemmas for grouping, sorting and clustering -/

theorem insDescBy_perm {α : Type} (ge : α → α → Bool) (x : α) (l : List α) :
    (insDescBy ge x l).Perm (x :: l) := by
  induction l with
  | nil => exact List.Perm.refl _
  | cons y ys ih =>
    unfold insDescBy
    by_cases h : ge x y = true
    · rw [if_pos h]
    · rw [if_neg h]
      exact (ih.cons y).trans (List.Perm.swap x y ys)

theorem sortDescBy_perm {α : Type} (ge : α → α → Bool) (xs : List α) :
    (sortDescBy ge xs).Perm xs := by
  induction xs with
  | nil => exact List.Perm.refl _
  | cons x rest ih =>
    exact (insDescBy_perm ge x (sortDescBy ge rest)).trans (ih.cons x)

theorem placeInClusters_flatten_perm (cmp2 : String → String → Bool)
    (cls : List (List String)) (i : String) :
    (placeInClusters cmp2 cls i).flatten.Perm (i :: cls.flatten) := by
  induction cls with
  | nil => exact List.Perm.refl _
  | cons cl rest ih =>
    unfold placeInClusters
    by_cases h : cl.all (fun j => cmp2 i j) = true
    · rw [if_pos h]
      simp only [List.flatten_cons, List.append_assoc, List.singleton_append]
      exact List.perm_middle
    · rw [if_neg h]
      simp only [List.flatten_cons]
      exact ((ih.append_left cl)).trans List.perm_middle

theorem greedyClusters_flatten_perm (cmp2 : String → String → Bool)
    (ids : List String) :
    (greedyClusters cmp2 ids).flatten.Perm ids := by
  have aux : ∀ (l : List String) (cls : List (List String)),
      ((l.foldl (placeInClusters cmp2) cls).flatten).Perm (cls.flatten ++ l) := by
    intro l
    induction l with
    | nil => intro cls; simp
    | cons i rest ih =>
      intro cls
      simp only [List.foldl_cons]
      refine (ih (placeInClusters cmp2 cls i)).trans ?_
      refine (((placeInClusters_flatten_perm cmp2 cls i).append_right
        rest).trans ?_)
      exact List.perm_middle.symm
  simpa using aux ids []

theorem joinIds_bucketAdd_perm (gs : List (String × List String))
    (k x : String) :
    (joinIds (bucketAdd gs k x)).Perm (x :: joinIds gs) := by
  induction gs with
  | nil => exact List.Perm.refl _
  | cons p rest ih =>
    obtain ⟨k', xs⟩ := p
    by_cases h : k' = k
    · subst h
      rw [bucketAdd_cons_eq]
      simp only [joinIds, List.map_cons, List.flatten_cons, List.append_assoc,
        List.singleton_append]
      exact List.perm_middle
    · rw [bucketAdd_cons_ne _ _ _ _ _ h]
      simp only [joinIds, List.map_cons, List.flatten_cons]
      refine (List.Perm.append_left xs ?_).trans List.perm_middle
      exact ih

theorem joinIds_foldl_bucketAdd_perm (key : String → String) (l : List String)
    (acc : List (String × List String)) :
    (joinIds (l.foldl (fun gs i => bucketAdd gs (key i) i) acc)).Perm
      (joinIds acc ++ l) := by
  induction l generalizing acc with
  | nil => simp
  | cons i rest ih =>
    simp only [List.foldl_cons]
    refine (ih (bucketAdd acc (key i) i)).trans ?_
    refine ((joinIds_bucketAdd_perm acc (key i) i).append_right rest).trans ?_
    exact List.perm_middle.symm

theorem joinIds_componentsIn_perm (st : ResState) (g : List String) :
    (joinIds (componentsIn st g)).Perm g := by
  simpa [joinIds] using
    joinIds_foldl_bucketAdd_perm (fun i => findRoot st i) g []

theorem joinIds_groupedIdsOf_perm (companies : List Company) (st : ResState) :
    (joinIds (groupedIdsOf companies st)).Perm
      ((companies.filter (fun c => !isQuar st c.id)).map Company.id) := by
  have aux : ∀ (l : List Company) (acc : List (String × List String)),
      (joinIds (l.foldl (fun gs c =>
        if isQuar st c.id then gs else bucketAdd gs (findRoot st c.id) c.id)
        acc)).Perm
        (joinIds acc ++ (l.filter (fun c => !isQuar st c.id)).map Company.id) := by
    intro l
    induction l with
    | nil => intro acc; simp
    | cons c rest ih =>
      intro acc
      simp only [List.foldl_cons]
      by_cases h : isQuar st c.id = true
      · rw [if_pos h]
        simpa [List.filter_cons, h] using ih acc
      · rw [if_neg h]
        refine (ih (bucketAdd acc (findRoot st c.id) c.id)).trans ?_
        simp only [List.filter_cons, h, Bool.not_false, List.map_cons]
        refine ((joinIds_bucketAdd_perm acc (findRoot st c.id)
          c.id).append_right _).trans ?_
        exact List.perm_middle.symm
  simpa using aux companies []

theorem joinIds_append (a b : List (String × List String)) :
    joinIds (a ++ b) = joinIds a ++ joinIds b := by
  simp [joinIds]

theorem refineGroup_joinIds_perm (ap bp : List (String × String))
    (qc mc : String → Nat) (st : ResState) (rc : String × List String) :
    (joinIds (refineGroup ap bp qc mc st rc)).Perm rc.2 := by
  unfold refineGroup
  by_cases hlen : rc.2.length ≤ 1
  · rw [if_pos hlen]
    simp [joinIds]
  · rw [if_neg hlen]
    dsimp only
    set cls := greedyClusters
      (fun i j => compatible (nameOf st i) (nameOf st j) ap bp)
      (sortDescBy (fun x y => !anchorKeyGT qc mc st y x) rc.2) with hcls
    have hperm : cls.flatten.Perm rc.2 := by
      rw [hcls]
      exact (greedyClusters_flatten_perm _ _).trans (sortDescBy_perm _ rc.2)
    clear_value cls
    rcases cls with _ | ⟨cl, clrest⟩
    · simpa [joinIds] using hperm
    · rcases clrest with _ | ⟨cl2, clrest2⟩
      · simpa [joinIds] using hperm
      · have hsnd : (((cl :: cl2 :: clrest2).enum.map
            (fun ic => (String.mk (rc.1.data ++ '#' :: (Nat.repr ic.1).data),
              ic.2))).map Prod.snd) = cl :: cl2 :: clrest2 := by
          rw [List.map_map]
          have hcomp : (Prod.snd ∘ fun ic : Nat × List String =>
              (String.mk (rc.1.data ++ '#' :: (Nat.repr ic.1).data), ic.2)) =
              Prod.snd := rfl
          rw [hcomp, List.enum_map_snd]
        dsimp only [joinIds]
        rw [hsnd]
        exact hperm

theorem joinIds_refineEntries_perm (ap bp : List (String × String))
    (qc mc : String → Nat) (st : ResState)
    (grouped : List (String × List String)) :
    (joinIds (refineEntries ap bp qc mc st grouped)).Perm (joinIds grouped) := by
  have aux : ∀ (l : List (String × List String))
      (acc : List (String × List String)),
      (joinIds (l.foldl (fun acc rc =>
        acc ++ refineGroup ap bp qc mc st rc) acc)).Perm
        (joinIds acc ++ joinIds l) := by
    intro l
    induction l with
    | nil => intro acc; simp [joinIds]
    | cons rc rest ih =>
      intro acc
      simp only [List.foldl_cons]
      refine (ih _).trans ?_
      rw [joinIds_append]
      have h1 : (joinIds acc ++ joinIds (refineGroup ap bp qc mc st rc) ++
          joinIds rest).Perm
          (joinIds acc ++ (rc.2 ++ joinIds rest)) := by
        rw [List.append_assoc]
        exact List.Perm.append_left _
          ((refineGroup_joinIds_perm ap bp qc mc st rc).append_right _)
      refine h1.trans ?_
      rw [show joinIds (rc :: rest) = rc.2 ++ joinIds rest from by
        simp [joinIds]]
  simpa [joinIds] using aux grouped []

/-! ### The dict collapse of the refinement pass -/

theorem foldl_append_eq {α β : Type} (f : α → List β) (l : List α)
    (l0 : List β) :
    l.foldl (fun acc a => acc ++ f a) l0 =
      l0 ++ l.foldl (fun acc a => acc ++ f a) [] := by
  induction l generalizing l0 with
  | nil => simp
  | cons a rest ih =>
    simp only [List.foldl_cons]
    rw [ih (l0 ++ f a), ih (([] : List β) ++ f a)]
    simp

theorem refineGroups_eq_entries_fold (ap bp : List (String × String))
    (qc mc : String → Nat) (st : ResState)
    (grouped : List (String × List String)) :
    refineGroups ap bp qc mc st grouped =
      (refineEntries ap bp qc mc st grouped).foldl
        (fun m kv => alSet m kv.1 kv.2) [] := by
  have aux : ∀ (l : List (String × List String))
      (m : List (String × List String)),
      l.foldl (fun acc rc =>
        (refineGroup ap bp qc mc st rc).foldl
          (fun m kv => alSet m kv.1 kv.2) acc) m =
      (l.foldl (fun acc rc => acc ++ refineGroup ap bp qc mc st rc)
        []).foldl (fun m kv => alSet m kv.1 kv.2) m := by
    intro l
    induction l with
    | nil => intro m; rfl
    | cons rc rest ih =>
      intro m
      simp only [List.foldl_cons]
      rw [ih, foldl_append_eq (refineGroup ap bp qc mc st) rest
        (([] : List (String × List String)) ++ refineGroup ap bp qc mc st rc),
        List.nil_append, List.foldl_append]
  exact aux grouped []

theorem alSet_eq_append {α : Type} (m : List (String × α)) (k : String)
    (v : α) (hk : k ∉ m.map Prod.fst) :
    alSet m k v = m ++ [(k, v)] := by
  induction m with
  | nil => rfl
  | cons p rest ih =>
    obtain ⟨k', v'⟩ := p
    rw [List.map_cons, List.mem_cons] at hk
    push_neg at hk
    show alSet ((k', v') :: rest) k v = (k', v') :: (rest ++ [(k, v)])
    simp only [alSet]
    rw [if_neg (fun h => hk.1 h.symm), ih hk.2]

theorem alSet_of_mem_keys {α : Type} (m : List (String × α)) (k : String)
    (v : α) (hnd : (m.map Prod.fst).Nodup) (hk : k ∈ m.map Prod.fst) :
    ∃ m1 u m2, m = m1 ++ (k, u) :: m2 ∧
      alSet m k v = m1 ++ (k, v) :: m2 := by
  induction m with
  | nil => cases hk
  | cons p rest ih =>
    obtain ⟨k', u'⟩ := p
    by_cases hkk : k' = k
    · subst hkk
      refine ⟨[], u', rest, by simp, ?_⟩
      show alSet ((k', u') :: rest) k' v = [] ++ (k', v) :: rest
      simp [alSet]
    · rw [List.map_cons, List.mem_cons] at hk
      rcases hk with h | h
      · exact absurd h.symm hkk
      · have hnd' : (rest.map Prod.fst).Nodup :=
          (List.nodup_cons.mp (by simpa using hnd)).2
        obtain ⟨m1, u, m2, hm, hset⟩ := ih hnd' h
        refine ⟨(k', u') :: m1, u, m2, by rw [hm]; rfl, ?_⟩
        show alSet ((k', u') :: rest) k v = (k', u') :: (m1 ++ (k, v) :: m2)
        simp only [alSet]
        rw [if_neg hkk, hset]

theorem mem_alSet {α : Type} (m : List (String × α)) (k : String) (v : α)
    (kv : String × α) (h : kv ∈ alSet m k v) : kv ∈ m ∨ kv = (k, v) := by
  induction m with
  | nil => exact Or.inr (List.mem_singleton.mp h)
  | cons p rest ih =>
    obtain ⟨k', v'⟩ := p
    by_cases hkk : k' = k
    · subst hkk
      have h' : kv ∈ (k', v) :: rest := by simpa [alSet] using h
      rcases List.mem_cons.mp h' with h1 | h1
      · exact Or.inr (by rw [h1])
      · exact Or.inl (List.mem_cons_of_mem _ h1)
    · have h' : kv ∈ (k', v') :: alSet rest k v := by
        simpa [alSet, hkk] using h
      rcases List.mem_cons.mp h' with h1 | h1
      · exact Or.inl (by rw [h1]; exact List.mem_cons_self _ _)
      · rcases ih h1 with h2 | h2
        · exact Or.inl (List.mem_cons_of_mem _ h2)
        · exact Or.inr h2

theorem mem_foldl_alSet_pairs (es m : List (String × List String))
    (kv : String × List String)
    (h : kv ∈ es.foldl (fun m kv => alSet m kv.1 kv.2) m) :
    kv ∈ m ∨ kv ∈ es := by
  induction es generalizing m with
  | nil => exact Or.inl h
  | cons e rest ih =>
    simp only [List.foldl_cons] at h
    rcases ih _ h with h1 | h1
    · rcases mem_alSet _ _ _ _ h1 with h2 | h2
      · exact Or.inl h2
      · right
        rw [h2]
        exact List.mem_cons_self _ _
    · exact Or.inr (List.mem_cons_of_mem _ h1)

theorem alSet_keys_nodup {α : Type} (m : List (String × α)) (k : String)
    (v : α) (hnd : (m.map Prod.fst).Nodup) :
    ((alSet m k v).map Prod.fst).Nodup := by
  by_cases hk : k ∈ m.map Prod.fst
  · obtain ⟨m1, u, m2, hm, hset⟩ := alSet_of_mem_keys m k v hnd hk
    rw [hset]
    rw [hm] at hnd
    simpa using hnd
  · rw [alSet_eq_append m k v hk]
    simp only [List.map_append]
    rw [List.nodup_append]
    refine ⟨hnd, List.nodup_singleton _, fun a ha hb => ?_⟩
    rw [List.mem_singleton.mp hb] at ha
    exact hk ha

theorem joinIds_foldl_alSet_nodup :
    ∀ (es m : List (String × List String)),
      (m.map Prod.fst).Nodup →
      (joinIds m ++ joinIds es).Nodup →
      (joinIds (es.foldl (fun m kv => alSet m kv.1 kv.2) m)).Nodup := by
  intro es
  induction es with
  | nil =>
    intro m _ hnd
    simpa [joinIds] using hnd
  | cons e rest ih =>
    intro m hkeys hnd
    simp only [List.foldl_cons]
    have hje : joinIds (e :: rest) = e.2 ++ joinIds rest := by
      simp [joinIds]
    rw [hje] at hnd
    refine ih _ (alSet_keys_nodup m e.1 e.2 hkeys) ?_
    by_cases hk : e.1 ∈ m.map Prod.fst
    · obtain ⟨m1, u, m2, hm, hset⟩ := alSet_of_mem_keys m e.1 e.2 hkeys hk
      rw [hset]
      rw [hm] at hnd
      have hj1 : joinIds (m1 ++ (e.1, u) :: m2) =
          joinIds m1 ++ (u ++ joinIds m2) := by
        rw [joinIds_append]
        simp [joinIds]
      have hj2 : joinIds (m1 ++ (e.1, e.2) :: m2) =
          joinIds m1 ++ (e.2 ++ joinIds m2) := by
        rw [joinIds_append]
        simp [joinIds]
      rw [hj1] at hnd
      rw [hj2]
      have hp : (joinIds m1 ++ (u ++ joinIds m2) ++
          (e.2 ++ joinIds rest)).Perm
          (((joinIds m1 ++ (e.2 ++ joinIds m2)) ++ joinIds rest) ++ u) := by
        refine List.perm_iff_count.mpr ?_
        intro a
        simp only [List.count_append]
        omega
      exact (hp.nodup_iff.mp hnd).sublist (List.sublist_append_left _ _)
    · rw [alSet_eq_append m e.1 e.2 hk, joinIds_append]
      have hone : joinIds [(e.1, e.2)] = e.2 := by simp [joinIds]
      rw [hone]
      simpa [List.append_assoc] using hnd

theorem mem_refineGroups_entries (ap bp : List (String × String))
    (qc mc : String → Nat) (st : ResState)
    (grouped : List (String × List String)) (kv : String × List String)
    (h : kv ∈ refineGroups ap bp qc mc st grouped) :
    kv ∈ refineEntries ap bp qc mc st grouped := by
  rw [refineGroups_eq_entries_fold] at h
  rcases mem_foldl_alSet_pairs _ _ _ h with h1 | h1
  · cases h1
  · exact h1

theorem joinIds_refineGroups_nodup (ap bp : List (String × String))
    (qc mc : String → Nat) (st : ResState)
    (grouped : List (String × List String))
    (hnd : (joinIds grouped).Nodup) :
    (joinIds (refineGroups ap bp qc mc st grouped)).Nodup := by
  rw [refineGroups_eq_entries_fold]
  refine joinIds_foldl_alSet_nodup _ [] (by simp) ?_
  have h1 : (joinIds (refineEntries ap bp qc mc st grouped)).Nodup :=
    ((joinIds_refineEntries_perm ap bp qc mc st grouped).nodup_iff).mpr hnd
  simpa [joinIds] using h1

/-! ### Key-set tracking through the engine state -/

theorem alGet_foldl_alSet_const_isSome {α : Type} (v : α) (l : List String)
    (m : List (String × α)) (x : String) :
    ((alGet (l.foldl (fun m i => alSet m i v) m) x).isSome = true) ↔
      x ∈ l ∨ (alGet m x).isSome = true := by
  by_cases hx : x ∈ l
  · rw [alGet_foldl_alSet_const_mem _ _ _ _ hx]
    simp [hx]
  · rw [alGet_foldl_alSet_const_not_mem _ _ _ _ hx]
    simp [hx]

theorem alGet_foldl_alSet_key_isSome {β α : Type} (key : β → String)
    (val : β → α) (l : List β) (m : List (String × α)) (x : String) :
    ((alGet (l.foldl (fun m c => alSet m (key c) (val c)) m) x).isSome = true) ↔
      x ∈ l.map key ∨ (alGet m x).isSome = true := by
  induction l generalizing m with
  | nil => simp
  | cons c rest ih =>
    simp only [List.foldl_cons, List.map_cons, List.mem_cons]
    rw [ih]
    by_cases hx : x = key c
    · subst hx
      rw [alGet_alSet_self]
      simp
    · rw [alGet_alSet_ne _ _ _ _ hx]
      constructor
      · rintro (h | h)
        · exact Or.inl (Or.inr h)
        · exact Or.inr h
      · rintro ((h | h) | h)
        · exact absurd h hx
        · exact Or.inl h
        · exact Or.inr h

theorem alGet_foldl_alSet_company_id_inv (l : List Company)
    (m : List (String × Company))
    (h : ∀ k c, alGet m k = some c → c.id = k) :
    ∀ k c, alGet (l.foldl (fun m c => alSet m c.id c) m) k = some c →
      c.id = k := by
  induction l generalizing m with
  | nil => exact h
  | cons c0 rest ih =>
    simp only [List.foldl_cons]
    refine ih _ (fun k c hk => ?_)
    by_cases hx : k = c0.id
    · subst hx
      rw [alGet_alSet_self] at hk
      cases hk
      rfl
    · rw [alGet_alSet_ne _ _ _ _ hx] at hk
      exact h k c hk

theorem maxByGT_mem {α : Type} (gt : α → α → Bool) (x0 : α) (l : List α) :
    maxByGT gt x0 l = x0 ∨ maxByGT gt x0 l ∈ l := by
  induction l generalizing x0 with
  | nil => exact Or.inl rfl
  | cons y rest ih =>
    have hstep : maxByGT gt x0 (y :: rest) =
        maxByGT gt (if gt y x0 = true then y else x0) rest := rfl
    rw [hstep]
    by_cases h : gt y x0 = true
    · rw [if_pos h]
      rcases ih y with h1 | h1
      · rw [h1]
        exact Or.inr (List.mem_cons_self _ _)
      · exact Or.inr (List.mem_cons_of_mem _ h1)
    · rw [if_neg h]
      rcases ih x0 with h1 | h1
      · exact Or.inl h1
      · exact Or.inr (List.mem_cons_of_mem _ h1)

theorem alGet_clearCompany_isSome (cs : List (String × Company))
    (i x : String) :
    (alGet (clearCompany cs i) x).isSome = (alGet cs x).isSome := by
  unfold clearCompany
  cases hg : alGet cs i with
  | none => rfl
  | some c =>
    by_cases hx : x = i
    · subst hx
      rw [alGet_alSet_self, hg]
      rfl
    · rw [alGet_alSet_ne _ _ _ _ hx]

theorem foldl_clearCompany_isSome (l : List String)
    (cs : List (String × Company)) (x : String) :
    (alGet (l.foldl clearCompany cs) x).isSome = (alGet cs x).isSome := by
  induction l generalizing cs with
  | nil => rfl
  | cons i rest ih => rw [List.foldl_cons, ih, alGet_clearCompany_isSome]

theorem clearCompany_id_inv (cs : List (String × Company)) (i : String)
    (h : ∀ k c, alGet cs k = some c → c.id = k) :
    ∀ k c, alGet (clearCompany cs i) k = some c → c.id = k := by
  intro k c hk
  unfold clearCompany at hk
  cases hg : alGet cs i with
  | none => rw [hg] at hk; exact h k c hk
  | some c0 =>
    rw [hg] at hk
    by_cases hx : k = i
    · subst hx
      rw [alGet_alSet_self] at hk
      cases hk
      exact h _ c0 hg
    · rw [alGet_alSet_ne _ _ _ _ hx] at hk
      exact h k c hk

theorem foldl_clearCompany_id_inv (l : List String)
    (cs : List (String × Company))
    (h : ∀ k c, alGet cs k = some c → c.id = k) :
    ∀ k c, alGet (l.foldl clearCompany cs) k = some c → c.id = k := by
  induction l generalizing cs with
  | nil => exact h
  | cons i rest ih =>
    rw [List.foldl_cons]
    exact ih _ (clearCompany_id_inv _ _ h)

theorem conflictEff_companiesById_isSome (qc : String → Nat) (pr : String)
    (a : ResState) (rc : String × List String) (x : String) :
    (alGet (conflictEff qc pr a rc).companiesById x).isSome =
      (alGet a.companiesById x).isSome := by
  unfold conflictEff
  split_ifs
  · rfl
  · rw [quarFold_eq]
  · rw [detachFold_eq]
    exact foldl_clearCompany_isSome _ _ _

theorem conflictEff_id_inv (qc : String → Nat) (pr : String) (a : ResState)
    (rc : String × List String)
    (h : ∀ k c, alGet a.companiesById k = some c → c.id = k) :
    ∀ k c, alGet (conflictEff qc pr a rc).companiesById k = some c →
      c.id = k := by
  unfold conflictEff
  split_ifs
  · exact h
  · rw [quarFold_eq]
    exact h
  · rw [detachFold_eq]
    exact foldl_clearCompany_id_inv _ _ h

theorem marketConflictStep_companiesById_isSome (qc mc : String → Nat)
    (st : ResState) (g : List String) (x : String) :
    (alGet (marketConflictStep qc mc st g).companiesById x).isSome =
      (alGet st.companiesById x).isSome := by
  unfold marketConflictStep
  dsimp only
  split_ifs
  · rfl
  · have aux : ∀ (cms : List (String × List String)) (a : ResState),
        (alGet ((cms.foldl (conflictEff qc
          (primaryRootIn qc mc (componentsIn st g))) a)).companiesById
          x).isSome = (alGet a.companiesById x).isSome := by
      intro cms
      induction cms with
      | nil => intro a; rfl
      | cons rc rest ih =>
        intro a
        rw [List.foldl_cons, ih, conflictEff_companiesById_isSome]
    exact aux _ _

theorem marketConflictStep_id_inv (qc mc : String → Nat) (st : ResState)
    (g : List String)
    (h : ∀ k c, alGet st.companiesById k = some c → c.id = k) :
    ∀ k c, alGet (marketConflictStep qc mc st g).companiesById k = some c →
      c.id = k := by
  unfold marketConflictStep
  dsimp only
  split_ifs
  · exact h
  · have aux : ∀ (cms : List (String × List String)) (a : ResState),
        (∀ k c, alGet a.companiesById k = some c → c.id = k) →
        ∀ k c, alGet ((cms.foldl (conflictEff qc
          (primaryRootIn qc mc (componentsIn st g))) a)).companiesById k =
            some c → c.id = k := by
      intro cms
      induction cms with
      | nil => intro a ha; exact ha
      | cons rc rest ih =>
        intro a ha
        rw [List.foldl_cons]
        exact ih _ (conflictEff_id_inv _ _ _ _ ha)
    exact aux _ _ h

theorem conflictEff_quarantine_keys (qc : String → Nat) (pr : String)
    (a : ResState) (rc : String × List String) (x : String)
    (h : (alGet (conflictEff qc pr a rc).quarantine x).isSome = true) :
    x ∈ rc.2 ∨ (alGet a.quarantine x).isSome = true := by
  unfold conflictEff at h
  split_ifs at h
  · exact Or.inr h
  · rw [quarFold_eq] at h
    by_cases hx : x ∈ rc.2
    · exact Or.inl hx
    · rw [alGet_foldl_alSet_const_not_mem _ _ _ _ hx] at h
      exact Or.inr h
  · rw [detachFold_eq] at h
    exact Or.inr h

theorem marketConflictStep_quarantine_keys (qc mc : String → Nat)
    (st : ResState) (g : List String) (x : String)
    (h : (alGet (marketConflictStep qc mc st g).quarantine x).isSome = true) :
    x ∈ g ∨ (alGet st.quarantine x).isSome = true := by
  unfold marketConflictStep at h
  dsimp only at h
  split_ifs at h
  · exact Or.inr h
  · have aux : ∀ (cms : List (String × List String)) (a : ResState),
        (alGet ((cms.foldl (conflictEff qc
          (primaryRootIn qc mc (componentsIn st g))) a)).quarantine
            x).isSome = true →
        (∃ rc ∈ cms, x ∈ rc.2) ∨ (alGet a.quarantine x).isSome = true := by
      intro cms
      induction cms with
      | nil => intro a ha; exact Or.inr ha
      | cons rc rest ih =>
        intro a ha
        rw [List.foldl_cons] at ha
        rcases ih _ ha with ⟨rc', hrc', hx⟩ | hq
        · exact Or.inl ⟨rc', List.mem_cons_of_mem _ hrc', hx⟩
        · rcases conflictEff_quarantine_keys _ _ _ _ _ hq with hx | hq'
          · exact Or.inl ⟨rc, List.mem_cons_self _ _, hx⟩
          · exact Or.inr hq'
    rcases aux _ _ h with ⟨rc, hrc, hx⟩ | hq
    · left
      have : x ∈ joinIds (componentsIn st g) :=
        List.mem_flatten.mpr ⟨rc.2, List.mem_map_of_mem Prod.snd hrc, hx⟩
      exact (joinIds_componentsIn_perm st g).mem_iff.mp this
    · exact Or.inr hq

theorem marketGroupsOf_members (companies : List Company) (st : ResState) :
    ∀ g ∈ marketGroupsOf companies st, ∀ i ∈ g.2,
      i ∈ companies.map Company.id := by
  have aux : ∀ (l : List Company) (acc : List (String × List String)),
      (∀ g ∈ acc, ∀ i ∈ g.2, i ∈ companies.map Company.id) →
      (∀ c ∈ l, c.id ∈ companies.map Company.id) →
      ∀ g ∈ l.foldl (fun gs c =>
          match lookupMK st c.id with
          | none => gs
          | some k => bucketAdd gs k c.id) acc,
        ∀ i ∈ g.2, i ∈ companies.map Company.id := by
    intro l
    induction l with
    | nil => intro acc hacc _; exact hacc
    | cons c rest ih =>
      intro acc hacc hmem g hg i hi
      simp only [List.foldl_cons] at hg
      cases hmk : lookupMK st c.id with
      | none =>
        rw [hmk] at hg
        exact ih acc hacc
          (fun c' hc' => hmem c' (List.mem_cons_of_mem _ hc')) g hg i hi
      | some k =>
        rw [hmk] at hg
        exact ih _ (bucketAdd_forall
            (fun _ i => i ∈ companies.map Company.id) acc k c.id hacc
            (hmem c (List.mem_cons_self _ _)))
          (fun c' hc' => hmem c' (List.mem_cons_of_mem _ hc')) g hg i hi
  intro g hg i hi
  refine aux companies [] (by intro g h; cases h)
    (fun c hc => List.mem_map_of_mem Company.id hc) g ?_ i hi
  exact hg

theorem foldl_marketConflictStep_companiesById_isSome (qc mc : String → Nat)
    (gs : List (String × List String)) (s : ResState) (x : String) :
    (alGet ((gs.foldl (fun s (g : String × List String) =>
      marketConflictStep qc mc s g.2) s).companiesById) x).isSome =
      (alGet s.companiesById x).isSome := by
  induction gs generalizing s with
  | nil => rfl
  | cons g rest ih =>
    rw [List.foldl_cons, ih, marketConflictStep_companiesById_isSome]

theorem foldl_marketConflictStep_id_inv (qc mc : String → Nat)
    (gs : List (String × List String)) (s : ResState)
    (h : ∀ k c, alGet s.companiesById k = some c → c.id = k) :
    ∀ k c, alGet ((gs.foldl (fun s (g : String × List String) =>
      marketConflictStep qc mc s g.2) s).companiesById) k = some c →
      c.id = k := by
  induction gs generalizing s with
  | nil => exact h
  | cons g rest ih =>
    rw [List.foldl_cons]
    exact ih _ (marketConflictStep_id_inv _ _ _ _ h)

theorem foldl_marketConflictStep_quarantine_keys (qc mc : String → Nat)
    (gs : List (String × List String)) (s : ResState) (x : String)
    (h : (alGet ((gs.foldl (fun s (g : String × List String) =>
      marketConflictStep qc mc s g.2) s).quarantine) x).isSome = true) :
    (∃ g ∈ gs, x ∈ g.2) ∨ (alGet s.quarantine x).isSome = true := by
  induction gs generalizing s with
  | nil => exact Or.inr h
  | cons g rest ih =>
    rw [List.foldl_cons] at h
    rcases ih _ h with ⟨g', hg', hx⟩ | hq
    · exact Or.inl ⟨g', List.mem_cons_of_mem _ hg', hx⟩
    · rcases marketConflictStep_quarantine_keys _ _ _ _ _ hq with hx | hq'
      · exact Or.inl ⟨g, List.mem_cons_self _ _, hx⟩
      · exact Or.inr hq'

theorem initState_companiesById_isSome (companies : List Company)
    (ncr : NonCompanyRules) (x : String) :
    ((alGet (initState companies ncr).companiesById x).isSome = true) ↔
      x ∈ companies.map Company.id := by
  unfold initState
  dsimp only
  rw [alGet_foldl_alSet_key_isSome Company.id (fun c => c) companies [] x]
  simp [alGet]

theorem initState_id_inv (companies : List Company) (ncr : NonCompanyRules) :
    ∀ k c, alGet (initState companies ncr).companiesById k = some c →
      c.id = k := by
  unfold initState
  dsimp only
  exact alGet_foldl_alSet_company_id_inv companies []
    (fun k c h => by cases h)

theorem initState_quarantine_keys (companies : List Company)
    (ncr : NonCompanyRules) (x : String)
    (h : (alGet (initState companies ncr).quarantine x).isSome = true) :
    x ∈ companies.map Company.id := by
  have aux : ∀ (l : List Company) (q : List (String × String)),
      (alGet (l.foldl (fun q c =>
        let nm := stripStr c.name
        if nm = "" then q
        else if matchesNonCompanyRules nm ncr ∨ looksLikeTopicOrSentence nm then
          alSet q c.id "non_company_label"
        else q) q) x).isSome = true →
      x ∈ l.map Company.id ∨ (alGet q x).isSome = true := by
    intro l
    induction l with
    | nil => intro q h; exact Or.inr h
    | cons c rest ih =>
      intro q h
      simp only [List.foldl_cons] at h
      rcases ih _ h with hx | hq
      · exact Or.inl (List.mem_cons_of_mem _ hx)
      · split_ifs at hq with h1 h2
        · exact Or.inr hq
        · by_cases hxc : x = c.id
          · left
            rw [List.map_cons, hxc]
            exact List.mem_cons_self _ _
          · rw [alGet_alSet_ne _ _ _ _ hxc] at hq
            exact Or.inr hq
        · exact Or.inr hq
  have h' : (alGet (companies.foldl (fun q c =>
      let nm := stripStr c.name
      if nm = "" then q
      else if matchesNonCompanyRules nm ncr ∨ looksLikeTopicOrSentence nm then
        alSet q c.id "non_company_label"
      else q) []) x).isSome = true := h
  rcases aux companies [] h' with hx | hq
  · exact hx
  · exact absurd hq (by simp [alGet])

theorem stateAfterPasses_companiesById_isSome (companies : List Company)
    (qc mc : String → Nat) (ap bp : List (String × String))
    (ncr : NonCompanyRules) (x : String) :
    ((alGet (stateAfterPasses companies qc mc ap bp ncr).companiesById
      x).isSome = true) ↔ x ∈ companies.map Company.id := by
  unfold stateAfterPasses
  dsimp only
  rw [foldl_marketConflictStep_companiesById_isSome]
  exact initState_companiesById_isSome companies ncr x

theorem stateAfterPasses_id_inv (companies : List Company)
    (qc mc : String → Nat) (ap bp : List (String × String))
    (ncr : NonCompanyRules) :
    ∀ k c, alGet (stateAfterPasses companies qc mc ap bp ncr).companiesById
      k = some c → c.id = k := by
  unfold stateAfterPasses
  dsimp only
  exact foldl_marketConflictStep_id_inv qc mc _ _ (initState_id_inv companies ncr)

theorem stateAfterPasses_quarantine_keys (companies : List Company)
    (qc mc : String → Nat) (ap bp : List (String × String))
    (ncr : NonCompanyRules) (x : String)
    (h : (alGet (stateAfterPasses companies qc mc ap bp ncr).quarantine
      x).isSome = true) :
    x ∈ companies.map Company.id := by
  unfold stateAfterPasses at h
  dsimp only at h
  rcases foldl_marketConflictStep_quarantine_keys _ _ _ _ _ h with
    ⟨g, hg, hx⟩ | hq
  · exact marketGroupsOf_members companies _ g hg x hx
  · exact initState_quarantine_keys companies ncr x hq

/-! ### Key-set tracking through canonicalization and the row rewriter -/

theorem canonStep_snd_isSome (qc mc : String → Nat) (st : ResState)
    (acc : List CanonicalCompany × List (String × String))
    (rc : String × List String) (x : String)
    (hlook : ∀ i ∈ rc.2, (alGet st.companiesById i).isSome = true) :
    ((alGet (canonStep qc mc st acc rc).2 x).isSome = true) ↔
      x ∈ rc.2 ∨ (alGet acc.2 x).isSome = true := by
  unfold canonStep
  cases hv : rc.2.filterMap (fun i => alGet st.companiesById i) with
  | nil =>
    have h2 : rc.2 = [] := by
      cases hids : rc.2 with
      | nil => rfl
      | cons i rest =>
        have hi := hlook i (by rw [hids]; exact List.mem_cons_self _ _)
        rw [hids] at hv
        cases ho : alGet st.companiesById i with
        | none => rw [ho] at hi; cases hi
        | some c =>
          rw [List.filterMap_cons, ho] at hv
          cases hv
    show ((alGet acc.2 x).isSome = true) ↔
      x ∈ rc.2 ∨ (alGet acc.2 x).isSome = true
    rw [h2]
    simp
  | cons v0 vrest =>
    show ((alGet (rc.2.foldl (fun m i =>
        alSet m i (maxByGT (primaryKeyGT qc mc st) v0 vrest).id) acc.2)
        x).isSome = true) ↔ x ∈ rc.2 ∨ (alGet acc.2 x).isSome = true
    exact alGet_foldl_alSet_const_isSome _ _ _ _

theorem canonStep_snd_not_mem (qc mc : String → Nat) (st : ResState)
    (acc : List CanonicalCompany × List (String × String))
    (rc : String × List String) (x : String) (hx : x ∉ rc.2) :
    alGet (canonStep qc mc st acc rc).2 x = alGet acc.2 x := by
  unfold canonStep
  cases hv : rc.2.filterMap (fun i => alGet st.companiesById i) with
  | nil => rfl
  | cons v0 vrest =>
    show alGet (rc.2.foldl (fun m i =>
        alSet m i (maxByGT (primaryKeyGT qc mc st) v0 vrest).id) acc.2) x =
      alGet acc.2 x
    exact alGet_foldl_alSet_const_not_mem _ _ _ _ hx

theorem canonStep_fst_mem (qc mc : String → Nat) (st : ResState)
    (acc : List CanonicalCompany × List (String × String))
    (rc : String × List String)
    (hinv : ∀ k c, alGet st.companiesById k = some c → c.id = k) :
    ∀ cc ∈ (canonStep qc mc st acc rc).1,
      cc ∈ acc.1 ∨ (cc.id ∈ rc.2 ∧
        alGet (canonStep qc mc st acc rc).2 cc.id = some cc.id) := by
  unfold canonStep
  cases hv : rc.2.filterMap (fun i => alGet st.companiesById i) with
  | nil =>
    intro cc hcc
    exact Or.inl hcc
  | cons v0 vrest =>
    intro cc hcc
    rcases List.mem_append.mp hcc with h1 | h1
    · exact Or.inl h1
    · have hcc' := List.mem_singleton.mp h1
      right
      have hpm : maxByGT (primaryKeyGT qc mc st) v0 vrest ∈ v0 :: vrest := by
        rcases maxByGT_mem (primaryKeyGT qc mc st) v0 vrest with h | h
        · rw [h]; exact List.mem_cons_self _ _
        · exact List.mem_cons_of_mem _ h
      rw [← hv] at hpm
      obtain ⟨i, hi, hio⟩ := List.mem_filterMap.mp hpm
      have hid : (maxByGT (primaryKeyGT qc mc st) v0 vrest).id = i :=
        hinv i _ hio
      constructor
      · rw [hcc']
        show (maxByGT (primaryKeyGT qc mc st) v0 vrest).id ∈ rc.2
        rw [hid]
        exact hi
      · rw [hcc']
        show alGet (rc.2.foldl (fun m i =>
            alSet m i (maxByGT (primaryKeyGT qc mc st) v0 vrest).id) acc.2)
            (maxByGT (primaryKeyGT qc mc st) v0 vrest).id =
          some (maxByGT (primaryKeyGT qc mc st) v0 vrest).id
        exact alGet_foldl_alSet_const_mem _ _ _ _ (by rw [hid]; exact hi)

theorem canonicalizeGroups_snd_isSome (qc mc : String → Nat) (st : ResState)
    (groups : List (String × List String)) (x : String)
    (hlook : ∀ g ∈ groups, ∀ i ∈ g.2,
      (alGet st.companiesById i).isSome = true) :
    ((alGet (canonicalizeGroups qc mc st groups).2 x).isSome = true) ↔
      x ∈ joinIds groups := by
  have aux : ∀ (l : List (String × List String))
      (acc : List CanonicalCompany × List (String × String)),
      (∀ g ∈ l, ∀ i ∈ g.2, (alGet st.companiesById i).isSome = true) →
      (((alGet (l.foldl (canonStep qc mc st) acc).2 x).isSome = true) ↔
        (x ∈ joinIds l ∨ (alGet acc.2 x).isSome = true)) := by
    intro l
    induction l with
    | nil =>
      intro acc _
      simp [joinIds]
    | cons g rest ih =>
      intro acc hl
      rw [List.foldl_cons,
        ih _ (fun g' hg' => hl g' (List.mem_cons_of_mem _ hg')),
        canonStep_snd_isSome qc mc st acc g x (hl g (List.mem_cons_self _ _))]
      have hj : joinIds (g :: rest) = g.2 ++ joinIds rest := by
        simp [joinIds]
      rw [hj]
      simp only [List.mem_append]
      tauto
  rw [canonicalizeGroups, aux groups ([], []) hlook]
  simp [alGet]

theorem canonicalizeGroups_fixed (qc mc : String → Nat) (st : ResState)
    (groups : List (String × List String))
    (hinv : ∀ k c, alGet st.companiesById k = some c → c.id = k)
    (hnd : (joinIds groups).Nodup) :
    ∀ cc ∈ (canonicalizeGroups qc mc st groups).1,
      alGet (canonicalizeGroups qc mc st groups).2 cc.id = some cc.id := by
  have aux : ∀ (l : List (String × List String))
      (acc : List CanonicalCompany × List (String × String)),
      (joinIds l).Nodup →
      (∀ cc ∈ acc.1, alGet acc.2 cc.id = some cc.id ∧ cc.id ∉ joinIds l) →
      ∀ cc ∈ (l.foldl (canonStep qc mc st) acc).1,
        alGet (l.foldl (canonStep qc mc st) acc).2 cc.id = some cc.id := by
    intro l
    induction l with
    | nil =>
      intro acc _ hacc cc hcc
      exact (hacc cc hcc).1
    | cons g rest ih =>
      intro acc hnd' hacc
      rw [List.foldl_cons]
      have hj : joinIds (g :: rest) = g.2 ++ joinIds rest := by
        simp [joinIds]
      rw [hj, List.nodup_append] at hnd'
      refine ih _ hnd'.2.1 ?_
      intro cc hcc
      rcases canonStep_fst_mem qc mc st acc g hinv cc hcc with h1 | ⟨hgm, hget⟩
      · have hprev := hacc cc h1
        have hng : cc.id ∉ g.2 := fun hgx =>
          hprev.2 (by rw [hj]; exact List.mem_append.mpr (Or.inl hgx))
        refine ⟨?_, fun hr =>
          hprev.2 (by rw [hj]; exact List.mem_append.mpr (Or.inr hr))⟩
        rw [canonStep_snd_not_mem qc mc st acc g cc.id hng]
        exact hprev.1
      · exact ⟨hget, fun hr => hnd'.2.2 hgm hr⟩
  intro cc hcc
  exact aux groups ([], []) hnd (fun cc h => by cases h) cc hcc

theorem rewriteRows_unknown_mem (quar aliasMap : List (String × String))
    (rows : List Row) (r : Row) (hr : r ∈ rows)
    (hq : alGet quar r.company_id = none)
    (ha : alGet aliasMap r.company_id = none) :
    r ∈ (rewriteRows quar aliasMap rows).1 := by
  induction rows with
  | nil => cases hr
  | cons r0 rest ih =>
    rcases List.mem_cons.mp hr with h | h
    · subst h
      have hneg : ¬((alGet quar r.company_id).isSome = true) := by
        rw [hq]
        simp
      show r ∈ (rewriteRows quar aliasMap (r :: rest)).1
      simp only [rewriteRows]
      rw [if_neg hneg]
      dsimp only
      rw [ha]
      exact List.mem_cons_self _ _
    · have hrec := ih h
      show r ∈ (rewriteRows quar aliasMap (r0 :: rest)).1
      simp only [rewriteRows]
      by_cases hc : (alGet quar r0.company_id).isSome = true
      · rw [if_pos hc]
        exact hrec
      · rw [if_neg hc]
        exact List.mem_cons_of_mem _ hrec

theorem joinIds_refined_mem (companies : List Company) (qc mc : String → Nat)
    (ap bp : List (String × String)) (ncr : NonCompanyRules) (i : String)
    (h : i ∈ joinIds (refineGroups ap bp qc mc
      (stateAfterPasses companies qc mc ap bp ncr)
      (groupedIdsOf companies (stateAfterPasses companies qc mc ap bp ncr)))) :
    i ∈ companies.map Company.id := by
  obtain ⟨s, hs, hi⟩ := List.mem_flatten.mp h
  obtain ⟨g, hg, hgs⟩ := List.mem_map.mp hs
  have hge := mem_refineGroups_entries ap bp qc mc
    (stateAfterPasses companies qc mc ap bp ncr)
    (groupedIdsOf companies (stateAfterPasses companies qc mc ap bp ncr))
    g hg
  have hjoin : i ∈ joinIds (refineEntries ap bp qc mc
      (stateAfterPasses companies qc mc ap bp ncr)
      (groupedIdsOf companies (stateAfterPasses companies qc mc ap bp ncr))) :=
    List.mem_flatten.mpr ⟨g.2, List.mem_map_of_mem Prod.snd hge, hgs ▸ hi⟩
  have h1 := (joinIds_refineEntries_perm ap bp qc mc
    (stateAfterPasses companies qc mc ap bp ncr)
    (groupedIdsOf companies
      (stateAfterPasses companies qc mc ap bp ncr))).mem_iff.mp hjoin
  have h2 := (joinIds_groupedIdsOf_perm companies
    (stateAfterPasses companies qc mc ap bp ncr)).mem_iff.mp h1
  obtain ⟨c, hc, hci⟩ := List.mem_map.mp h2
  exact hci ▸ List.mem_map_of_mem Company.id (List.mem_of_mem_filter hc)

theorem refined_lookup (companies : List Company) (qc mc : String → Nat)
    (ap bp : List (String × String)) (ncr : NonCompanyRules) :
    ∀ g ∈ refineGroups ap bp qc mc
        (stateAfterPasses companies qc mc ap bp ncr)
        (groupedIdsOf companies (stateAfterPasses companies qc mc ap bp ncr)),
      ∀ i ∈ g.2,
        (alGet (stateAfterPasses companies qc mc ap bp
          ncr).companiesById i).isSome = true := by
  intro g hg i hi
  refine (stateAfterPasses_companiesById_isSome companies qc mc ap bp
    ncr i).mpr (joinIds_refined_mem companies qc mc ap bp ncr i ?_)
  exact List.mem_flatten.mpr ⟨g.2, List.mem_map_of_mem Prod.snd hg, hi⟩

/-! ### The story-mention loop invariant -/

theorem matchedCompanies_pos (specsBy : List (String × List AliasSpec))
    (companyIds : List String) (ntext : String) :
    ∀ p ∈ matchedCompanies specsBy companyIds ntext, 1 ≤ p.2 := by
  have aux : ∀ (l : List String) (ms : List (String × Nat)),
      (∀ p ∈ ms, 1 ≤ p.2) →
      ∀ p ∈ l.foldl (fun ms cid =>
        let specs := (alGet specsBy cid).getD []
        if specs.isEmpty then ms
        else if ¬specs.any (fun sp =>
            sp.first_token ∈ runsOf (fun c => c ≠ ' ') ntext.data) then ms
        else
          let n := countStoryMentions ntext.data specs
          if n > 0 then ms ++ [(cid, n)] else ms) ms, 1 ≤ p.2 := by
    intro l
    induction l with
    | nil => intro ms hms; exact hms
    | cons cid rest ih =>
      intro ms hms
      rw [List.foldl_cons]
      refine ih _ ?_
      intro p hp
      dsimp only at hp
      by_cases h1 : ((alGet specsBy cid).getD []).isEmpty = true
      · rw [if_pos h1] at hp
        exact hms p hp
      · rw [if_neg h1] at hp
        by_cases h2 : ((alGet specsBy cid).getD []).any (fun sp =>
            sp.first_token ∈ runsOf (fun c => c ≠ ' ') ntext.data) = true
        · rw [if_neg (not_not_intro h2)] at hp
          by_cases h3 : countStoryMentions ntext.data
              ((alGet specsBy cid).getD []) > 0
          · rw [if_pos h3] at hp
            rcases List.mem_append.mp hp with h | h
            · exact hms p h
            · rw [List.mem_singleton.mp h]
              exact h3
          · rw [if_neg h3] at hp
            exact hms p hp
        · rw [if_pos h2] at hp
          exact hms p hp
  exact aux companyIds [] (fun p hp => by cases hp)

theorem emitMatches_inv (sid stitle purl ptitle sdate : String) (spos : Nat)
    (ssrc : String) (matched : List (String × Nat))
    (seen : List (String × String)) (rows : List StoryMention)
    (hpos : ∀ p ∈ matched, 1 ≤ p.2)
    (hinv : rows.Pairwise (fun r1 r2 =>
        (r1.company_id, r1.story_id) ≠ (r2.company_id, r2.story_id)) ∧
      (∀ r ∈ rows, (r.company_id, r.story_id) ∈ seen) ∧
      (∀ r ∈ rows, 1 ≤ r.mention_count)) :
    (emitMatches sid stitle purl ptitle sdate spos ssrc matched
        (seen, rows)).2.Pairwise (fun r1 r2 =>
        (r1.company_id, r1.story_id) ≠ (r2.company_id, r2.story_id)) ∧
      (∀ r ∈ (emitMatches sid stitle purl ptitle sdate spos ssrc matched
          (seen, rows)).2,
        (r.company_id, r.story_id) ∈
          (emitMatches sid stitle purl ptitle sdate spos ssrc matched
            (seen, rows)).1) ∧
      (∀ r ∈ (emitMatches sid stitle purl ptitle sdate spos ssrc matched
          (seen, rows)).2, 1 ≤ r.mention_count) := by
  induction matched generalizing seen rows with
  | nil => exact hinv
  | cons p rest ih =>
    obtain ⟨cid, n⟩ := p
    simp only [emitMatches]
    by_cases hc : (cid, sid) ∈ seen
    · rw [if_pos hc]
      exact ih seen rows (fun p hp => hpos p (List.mem_cons_of_mem _ hp)) hinv
    · rw [if_neg hc]
      refine ih _ _ (fun p hp => hpos p (List.mem_cons_of_mem _ hp)) ?_
      obtain ⟨hpw, hseen, hcnt⟩ := hinv
      refine ⟨?_, ?_, ?_⟩
      · rw [List.pairwise_append]
        refine ⟨hpw, List.pairwise_singleton _ _, ?_⟩
        intro a ha b hb
        rw [List.mem_singleton.mp hb]
        intro hab
        exact hc (hab ▸ hseen a ha)
      · intro r hr
        rcases List.mem_append.mp hr with h | h
        · exact List.mem_append.mpr (Or.inl (hseen r h))
        · rw [List.mem_singleton.mp h]
          exact List.mem_append.mpr (Or.inr (List.mem_singleton.mpr rfl))
      · intro r hr
        rcases List.mem_append.mp hr with h | h
        · exact hcnt r h
        · rw [List.mem_singleton.mp h]
          exact hpos (cid, n) (List.mem_cons_self _ _)

theorem storiesLoop_inv (specsBy : List (String × List AliasSpec))
    (companyIds : List String) (purl ptitle sdate : String)
    (stories : List Story) (seen : List (String × String))
    (rows : List StoryMention)
    (hinv : rows.Pairwise (fun r1 r2 =>
        (r1.company_id, r1.story_id) ≠ (r2.company_id, r2.story_id)) ∧
      (∀ r ∈ rows, (r.company_id, r.story_id) ∈ seen) ∧
      (∀ r ∈ rows, 1 ≤ r.mention_count)) :
    (storiesLoop specsBy companyIds purl ptitle sdate stories
        (seen, rows)).2.Pairwise (fun r1 r2 =>
        (r1.company_id, r1.story_id) ≠ (r2.company_id, r2.story_id)) ∧
      (∀ r ∈ (storiesLoop specsBy companyIds purl ptitle sdate stories
          (seen, rows)).2,
        (r.company_id, r.story_id) ∈
          (storiesLoop specsBy companyIds purl ptitle sdate stories
            (seen, rows)).1) ∧
      (∀ r ∈ (storiesLoop specsBy companyIds purl ptitle sdate stories
          (seen, rows)).2, 1 ≤ r.mention_count) := by
  induction stories generalizing seen rows with
  | nil => exact hinv
  | cons story rest ih =>
    simp only [storiesLoop]
    by_cases h1 : normalizeAliasPhrase (stripStr story.text) = ""
    · rw [if_pos h1]
      exact ih seen rows hinv
    · rw [if_neg h1]
      by_cases h2 : (matchedCompanies specsBy companyIds
          (normalizeAliasPhrase (stripStr story.text))).isEmpty = true
      · rw [if_pos h2]
        exact ih seen rows hinv
      · rw [if_neg h2]
        exact ih _ _ (emitMatches_inv _ _ _ _ _ _ _ _ seen rows
          (matchedCompanies_pos specsBy companyIds _) hinv)

theorem postsLoop_inv (specsBy : List (String × List AliasSpec))
    (companyIds : List String) (posts : List BriefPost)
    (seen : List (String × String)) (rows : List StoryMention)
    (hinv : rows.Pairwise (fun r1 r2 =>
        (r1.company_id, r1.story_id) ≠ (r2.company_id, r2.story_id)) ∧
      (∀ r ∈ rows, (r.company_id, r.story_id) ∈ seen) ∧
      (∀ r ∈ rows, 1 ≤ r.mention_count)) :
    (postsLoop specsBy companyIds posts (seen, rows)).2.Pairwise
        (fun r1 r2 =>
        (r1.company_id, r1.story_id) ≠ (r2.company_id, r2.story_id)) ∧
      (∀ r ∈ (postsLoop specsBy companyIds posts (seen, rows)).2,
        (r.company_id, r.story_id) ∈
          (postsLoop specsBy companyIds posts (seen, rows)).1) ∧
      (∀ r ∈ (postsLoop specsBy companyIds posts (seen, rows)).2,
        1 ≤ r.mention_count) := by
  induction posts generalizing seen rows with
  | nil => exact hinv
  | cons post rest ih =>
    simp only [postsLoop]
    by_cases h1 : stripStr post.url = ""
    · rw [if_pos h1]
      exact ih seen rows hinv
    · rw [if_neg h1]
      exact ih _ _ (storiesLoop_inv _ _ _ _ _ _ seen rows hinv)

/-- C2: FAILS — the engine can drop raw ids silently.  On `c2Companies`
with `c1Quotes`, the refinement pass synthesizes the cluster key `a#0` for
the cluster `[a, b]`, and the separate raw company whose id is literally
`a#0` then overwrites that dict entry, so the raw id `a` (and likewise `b`)
ends in neither `alias_map` nor `quarantine`. -/
theorem C2_raw_id_lost :
    "a" ∈ c2Companies.map Company.id ∧
      alGet (mergeCompanyVariants c2Companies c1Quotes [] [] []
        ncrEmpty).aliasMap "a" = none ∧
      alGet (mergeCompanyVariants c2Companies c1Quotes [] [] []
        ncrEmpty).quarantine "a" = none := by decide

/-- C8: every canonical company id is a fixed point of the alias map,
provided the raw company ids are pairwise distinct (as ids are). -/
theorem C8_canonical_ids_fixed (companies : List Company)
    (quotes mentions : List Row) (ap bp : List (String × String))
    (ncr : NonCompanyRules)
    (hnd : (companies.map Company.id).Nodup) :
    ∀ cc ∈ (mergeCompanyVariants companies quotes mentions ap bp
        ncr).canonical,
      alGet (mergeCompanyVariants companies quotes mentions ap bp
        ncr).aliasMap cc.id = some cc.id := by
  set qc := countRows quotes with hqc
  set mc := countRows mentions with hmc
  set bp' := bp ++ [(ruleKeyOf "Reliance Consumer Products",
    ruleKeyOf "Reliance Industries")] with hbp
  set st5 := stateAfterPasses companies qc mc ap bp' ncr with hst5
  set refined := refineGroups ap bp' qc mc st5
    (groupedIdsOf companies st5) with href
  have hC : (mergeCompanyVariants companies quotes mentions ap bp
      ncr).canonical = (canonicalizeGroups qc mc st5 refined).1 := rfl
  have hA : (mergeCompanyVariants companies quotes mentions ap bp
      ncr).aliasMap = (canonicalizeGroups qc mc st5 refined).2 := rfl
  rw [hC, hA]
  refine canonicalizeGroups_fixed qc mc st5 refined
    (stateAfterPasses_id_inv companies qc mc ap bp' ncr) ?_
  refine joinIds_refineGroups_nodup ap bp' qc mc st5
    (groupedIdsOf companies st5) ?_
  refine (joinIds_groupedIdsOf_perm companies st5).nodup_iff.mpr ?_
  have hsub : ((companies.filter (fun c => !isQuar st5 c.id)).map
      Company.id).Sublist (companies.map Company.id) :=
    (List.filter_sublist companies).map Company.id
  exact hnd.sublist hsub

/-- C8 witness: the fixed-point property evaluated on the two-company SBI
scenario, whose members merge into one canonical company. -/
theorem C8_canonical_ids_fixed_witness :
    (([{ id := "sbi", name := "SBI",
         url := some "https://zerodha.com/markets/stocks/NSE/SBIN/" },
       { id := "sb", name := "State Bank of India", url := none }] :
        List Company).map Company.id).Nodup ∧
      ∀ cc ∈ (mergeCompanyVariants
          [{ id := "sbi", name := "SBI",
             url := some "https://zerodha.com/markets/stocks/NSE/SBIN/" },
           { id := "sb", name := "State Bank of India", url := none }]
          [] [] [] [] ncrEmpty).canonical,
        alGet (mergeCompanyVariants
          [{ id := "sbi", name := "SBI",
             url := some "https://zerodha.com/markets/stocks/NSE/SBIN/" },
           { id := "sb", name := "State Bank of India", url := none }]
          [] [] [] [] ncrEmpty).aliasMap cc.id = some cc.id :=
  ⟨by decide, C8_canonical_ids_fixed
    [{ id := "sbi", name := "SBI",
       url := some "https://zerodha.com/markets/stocks/NSE/SBIN/" },
     { id := "sb", name := "State Bank of India", url := none }]
    [] [] [] [] ncrEmpty (by decide)⟩

/-- C10: a quote or mention row whose company id matches no raw company is
neither dropped nor retargeted: the rewriter passes it through unchanged. -/
theorem C10_unknown_company_rows_kept (companies : List Company)
    (quotes mentions : List Row) (ap bp : List (String × String))
    (ncr : NonCompanyRules) (r : Row)
    (hid : r.company_id ∉ companies.map Company.id) :
    (r ∈ quotes → r ∈ (mergeCompanyVariants companies quotes mentions ap bp
        ncr).quotes) ∧
      (r ∈ mentions → r ∈ (mergeCompanyVariants companies quotes mentions ap
        bp ncr).mentions) := by
  set qc := countRows quotes with hqc
  set mc := countRows mentions with hmc
  set bp' := bp ++ [(ruleKeyOf "Reliance Consumer Products",
    ruleKeyOf "Reliance Industries")] with hbp
  set st5 := stateAfterPasses companies qc mc ap bp' ncr with hst5
  set refined := refineGroups ap bp' qc mc st5
    (groupedIdsOf companies st5) with href
  have hq : alGet st5.quarantine r.company_id = none := by
    cases hg : alGet st5.quarantine r.company_id with
    | none => rfl
    | some v =>
      refine absurd (stateAfterPasses_quarantine_keys companies qc mc ap bp'
        ncr r.company_id ?_) hid
      rw [hg]
      rfl
  have ha : alGet (canonicalizeGroups qc mc st5 refined).2 r.company_id =
      none := by
    cases hg : alGet (canonicalizeGroups qc mc st5 refined).2 r.company_id with
    | none => rfl
    | some v =>
      refine absurd (joinIds_refined_mem companies qc mc ap bp' ncr
        r.company_id ?_) hid
      refine (canonicalizeGroups_snd_isSome qc mc st5 refined r.company_id
        (refined_lookup companies qc mc ap bp' ncr)).mp ?_
      rw [hg]
      rfl
  constructor
  · intro hr
    show r ∈ (rewriteRows st5.quarantine
      (canonicalizeGroups qc mc st5 refined).2 quotes).1
    exact rewriteRows_unknown_mem _ _ _ _ hr hq ha
  · intro hr
    show r ∈ (rewriteRows st5.quarantine
      (canonicalizeGroups qc mc st5 refined).2 mentions).1
    exact rewriteRows_unknown_mem _ _ _ _ hr hq ha

/-- C10 witness: a quote row pointing at an id no company carries survives
the rewrite unchanged. -/
theorem C10_unknown_company_rows_kept_witness :
    (({ id := "q1", company_id := "ghost", edition_id := "e1" } :
        Row).company_id ∉
      ([{ id := "acme", name := "Acme Corp", url := none }] :
        List Company).map Company.id) ∧
      ((({ id := "q1", company_id := "ghost", edition_id := "e1" } : Row) ∈
          [({ id := "q1", company_id := "ghost", edition_id := "e1" } : Row)] →
        ({ id := "q1", company_id := "ghost", edition_id := "e1" } : Row) ∈
          (mergeCompanyVariants
            [{ id := "acme", name := "Acme Corp", url := none }]
            [{ id := "q1", company_id := "ghost", edition_id := "e1" }] []
            [] [] ncrEmpty).quotes) ∧
        (({ id := "q1", company_id := "ghost", edition_id := "e1" } : Row) ∈
            ([] : List Row) →
          ({ id := "q1", company_id := "ghost", edition_id := "e1" } : Row) ∈
            (mergeCompanyVariants
              [{ id := "acme", name := "Acme Corp", url := none }]
              [{ id := "q1", company_id := "ghost", edition_id := "e1" }] []
              [] [] ncrEmpty).mentions)) :=
  ⟨by decide, C10_unknown_company_rows_kept
    [{ id := "acme", name := "Acme Corp", url := none }]
    [{ id := "q1", company_id := "ghost", edition_id := "e1" }] [] [] []
    ncrEmpty { id := "q1", company_id := "ghost", edition_id := "e1" }
    (by decide)⟩

/-- C9: the story-mention output never holds two rows with the same
`(company_id, story_id)` pair, and every emitted row's mention count is at
least one. -/
theorem C9_story_mentions_unique_and_positive
    (companies : List CanonicalCompany) (report : List MergedGroup)
    (posts : List BriefPost) (rulesFile : DailyAliasRulesFile) :
    (buildDailybriefStoryMentions companies report posts
        rulesFile).Pairwise (fun r1 r2 =>
        (r1.company_id, r1.story_id) ≠ (r2.company_id, r2.story_id)) ∧
      ∀ r ∈ buildDailybriefStoryMentions companies report posts rulesFile,
        1 ≤ r.mention_count := by
  have h := postsLoop_inv
    (buildCompanyAliasSpecs
      (buildCompanyAliasMap companies report (loadDailyRules rulesFile))
      (loadDailyRules rulesFile))
    (companies.filterMap (fun c =>
      let s := stripStr c.id
      if s = "" then none else some s))
    posts [] []
    ⟨List.Pairwise.nil, ⟨fun r hr => absurd hr (List.not_mem_nil r),
      fun r hr => absurd hr (List.not_mem_nil r)⟩⟩
  exact ⟨h.1, h.2.2⟩

/-! ### Concrete kernel evaluations validating the embedding -/

example : nameTokens "Acme Industries Limited" = ["acme", "industries", "limited"] := by decide
example : normalizedNameTokens "Acme Inds Limited" = ["acme", "industries"] := by decide
example : companyNameKey "HDFC AMC" = "hdfc asset management" := by decide
example : hasLegalSuffix "Acme Industries Limited" = true := by decide
example : normalizeNameKey "  We, expect: GROWTH " = "we expect growth" := by decide

example : compatible "Acme Industries Limited" "Acme Industries" [] [] = true := by decide
example : compatible "SBI" "State Bank of India" [] [] = true := by decide
example : compatible "A B C" "A B C Q" [] [] = true := by decide
example : compatible "A B C Q" "A B C Z" [] [] = false := by decide
example : compatible "Aa Aa Bb" "Aa Bb Cc" [] [] = true := by decide
example : compatible "Aa Bb Cc" "Aa Aa Bb" [] [] = false := by decide

example : marketKeyFromUrl (some "https://zerodha.com/markets/stocks/NSE/TCS/")
    = some "NSE:TCS" := by decide
example : marketKeyFromUrl (some "https://www.thechatter.zerodha.com/markets/stocks/bse/Infy")
    = some "BSE:INFY" := by decide
example : marketKeyFromUrl (some "https://example.com/markets/stocks/NSE/TCS/")
    = none := by decide
example : marketKeyFromUrl (some "https://zerodha.com/markets/stocks/NSE/TCS/extra/")
    = none := by decide
example : marketKeyFromUrl (some "") = none := by decide
example : looksLikeTopicOrSentence "We expect strong growth in coming quarters" = true := by decide
example : looksLikeTopicOrSentence "Comments on steel" = true := by decide
example : looksLikeTopicOrSentence "Minister speaks on tariffs" = true := by decide
example : looksLikeTopicOrSentence "Tata Motors" = false := by decide
example : looksLikeTopicOrSentence "A B C Q" = false := by decide

example :
    ((mergeCompanyVariants
      [{ id := "a", name := "A B C", url := some "https://zerodha.com/markets/stocks/NSE/X/" },
       { id := "b", name := "A B C Q", url := none },
       { id := "c", name := "A B C Z", url := some "https://zerodha.com/markets/stocks/NSE/X/" }]
      [{ id := "q1", company_id := "a", edition_id := "e1" },
       { id := "q2", company_id := "a", edition_id := "e1" },
       { id := "q3", company_id := "b", edition_id := "e1" }]
      [] [] [] ncrEmpty).canonical.map (fun cc => (cc.id, cc.market_key)))
    = [("a", some "NSE:X"), ("c", some "NSE:X")] := by decide

example :
    ((mergeCompanyVariants
      [{ id := "x", name := "Acme", url := none },
       { id := "y", name := "Acme", url := none }]
      [] [] [] [] ncrEmpty).canonical.map (fun cc => cc.id)) = ["x"] := by decide

example :
    ((mergeCompanyVariants
      [{ id := "y", name := "Acme", url := none },
       { id := "x", name := "Acme", url := none }]
      [] [] [] [] ncrEmpty).canonical.map (fun cc => cc.id)) = ["y"] := by decide

example :
    ((mergeCompanyVariants
      [{ id := "sbi", name := "SBI", url := some "https://zerodha.com/markets/stocks/NSE/SBIN/" },
       { id := "sb", name := "State Bank of India", url := none }]
      [] [] [] [] ncrEmpty).canonical.map
        (fun cc => (cc.id, cc.name, cc.market_key, cc.identity_source, cc.identity_confidence)))
    = [("sbi", "SBI", some "NSE:SBIN", "market_key+name", "high")] := by decide

example :
    (buildDailybriefStoryMentions
      [{ id := "hdfc-bank", name := "HDFC Bank", url := none,
         market_key := none, canonical_company_id := "hdfc-bank",
         identity_source := "single", identity_confidence := "medium" }]
      []
      [{ url := "https://x.com/post", title := "Post", date := "2026-01-01",
         sitemap_lastmod := "",
         stories := [{ story_id := "s1", title := "T", position := 1,
                       source := "src",
                       text := "HDFC Bank and HDFC Bank reported strong growth" }] }]
      { company_aliases := [], alias_overrides := [], blocked_aliases := [],
        strict_companies := [], company_blocked_aliases := [] }).map
      (fun r => (r.company_id, r.story_id, r.mention_count))
    = [("hdfc-bank", "s1", 2)] := by decide

end CompanyChatter
